import Mathlib

/-!
Verification of the pegovka glyph codec (src/src/main.rs).

The Rust program decodes a black/white pixel grid into typed tokens and can
re-encode a non-negative integer as a glyph bitmap.  This file is a shallow
embedding of the codec:

* the pixel grid `Vec<Vec<u8>>` (indexed `image[x][y]`, column-major) is a
  structure holding its two dimensions and a total cell function; every index
  operation of the Rust code goes through `Image.get`, which returns
  `Except Err` so that an out-of-bounds `Vec` index (a Rust panic) is the
  error `Err.oob`;
* `i32` arithmetic uses `Int` with the debug-build panic semantics made
  explicit: `1 << e` aborts for a shift amount `e ≥ 32` (`Err.shiftOvf`),
  `+=` aborts when the result leaves `[-2^31, 2^31)` (`Err.addOvf`), unary
  negation aborts on `-2^31` (`Err.negOvf`);
* `usize` subtraction underflow (a debug panic) is the error `Err.underflow`;
* the SVG renderer is a collaborator: the scanner records the annotation
  calls it would issue as a list of `GlyphRec`, and the `println!` warning of
  `try_parse_symbol` is modelled by a warning counter carried in its result.
-/

set_option maxHeartbeats 1000000
set_option maxRecDepth 10000

namespace Pegovka

/-- Run-time faults of the Rust program (debug-build panic semantics). -/
inductive Err where
  | oob
  | underflow
  | shiftOvf (e : Nat)
  | addOvf
  | negOvf
  | assertFail
  | fuelExhausted
  deriving DecidableEq

/-- The pixel grid `Image = Vec<Vec<u8>>` of the Rust code together with the
`ImageWrapper` dimensions (`image[x]` has length `height`, there are `width`
columns; `parse_file` always builds it rectangular). `data` is total; all
reads the Rust code performs go through `Image.get` which checks bounds. -/
structure Image where
  width : Nat
  height : Nat
  data : Nat → Nat → Nat

/-- `image[x][y]`: a checked read, `Err.oob` models the Rust index panic. -/
def Image.get (img : Image) (x y : Nat) : Except Err Nat :=
  if x < img.width ∧ y < img.height then .ok (img.data x y) else .error .oob

/-- `GlyphType` of the Rust code (the `Ineteger` typo is the source's). -/
inductive GlyphType where
  | Ineteger
  | Command
  | Variable
  deriving DecidableEq

/-- `Glyph` of the Rust code. -/
inductive Glyph where
  | Integer (v : Int)
  | Command (v : Int)
  | Variable (v : Int)
  deriving DecidableEq

/-- `type Token = (i32, Glyph)`. -/
abbrev Token := Int × Glyph

/-- `ParseResult` of the Rust code. -/
inductive ParseResult where
  | none
  | genericGlyph (dx dy : Nat) (value : Int) (glyph_type : GlyphType) (glyph : Glyph)
  deriving DecidableEq

def i32Min : Int := -(2 ^ 31)
def i32Max : Int := 2 ^ 31 - 1

/-- `1 << e` on `i32`: aborts for `e ≥ 32`; `1 << 31` wraps to `i32::MIN`
(shifts never panic on value overflow, only on the shift amount). -/
def shlOne (e : Nat) : Except Err Int :=
  if 32 ≤ e then .error (.shiftOvf e)
  else if e = 31 then .ok i32Min
  else .ok ((2 : Int) ^ e)

/-- `i32` addition with the debug overflow check. -/
def addI32 (a b : Int) : Except Err Int :=
  if i32Min ≤ a + b ∧ a + b ≤ i32Max then .ok (a + b) else .error .addOvf

/-- `i32` negation with the debug overflow check (`- i32::MIN` aborts). -/
def negI32 (a : Int) : Except Err Int :=
  if a = i32Min then .error .negOvf else .ok (-a)

/-- Error-propagating left fold: the shape of every loop of the Rust code
whose body can panic. -/
def exceptFold {σ α : Type} (f : σ → α → Except Err σ) : σ → List α → Except Err σ
  | s, [] => .ok s
  | s, a :: l =>
    match f s a with
    | .error e => .error e
    | .ok s' => exceptFold f s' l

/-- One iteration `i` of `is_full_frame`'s loop.  The Rust loop returns
`false` at the first failing probe; once the accumulator is `false` no
further cell is read.  Note the probes compare against the literal `1`
(not `set`) and the second probe `image[x + delta - 1][y + 1]` is at the
fixed row `y + 1`, exactly as in the source. -/
def frame_step (image : Image) (x y delta : Nat) (acc : Bool) (i : Nat) : Except Err Bool :=
  if acc = false then .ok false
  else
    match image.get x (y + i) with
    | .error e => .error e
    | .ok a =>
      if a ≠ 1 then .ok false
      else
        match image.get (x + delta - 1) (y + 1) with
        | .error e => .error e
        | .ok b =>
          if b ≠ 1 then .ok false
          else
            match image.get (x + i) y with
            | .error e => .error e
            | .ok c =>
              if c ≠ 1 then .ok false
              else
                match image.get (x + i) (y + delta - 1) with
                | .error e => .error e
                | .ok d =>
                  if d ≠ 1 then .ok false else .ok true

/-- `is_full_frame` of the Rust code. -/
def is_full_frame (image : Image) (x y delta : Nat) : Except Err Bool :=
  exceptFold (frame_step image x y delta) true (List.range delta)

/-- The `delta`-growth loop of `try_parse_symbol`.  The loop body runs only
while `delta < 10`, so at most 9 iterations happen; it is modelled with
explicit structural fuel `10` (more than enough).  Cell reads here are raw
`data` reads: the boundary guard `x + delta >= width || y + delta >= height`
is checked first, and the anchor test has already established
`x < width` and `y < height`, so the Rust reads in this loop never panic. -/
def find_delta_loop (iw : Image) (x y set : Nat) : Nat → Nat → Nat
  | delta, 0 => delta
  | delta, fuel + 1 =>
    if delta < 10 then
      if x + delta ≥ iw.width ∨ y + delta ≥ iw.height then delta
      else if iw.data (x + delta) y ≠ set ∨ iw.data x (y + delta) ≠ set then delta
      else find_delta_loop iw x y set (delta + 1) fuel
    else delta

/-- `delta` as computed by `try_parse_symbol` (start at 1, grow to at most 10). -/
def find_delta (iw : Image) (x y set : Nat) : Nat :=
  find_delta_loop iw x y set 1 10

/-- One body cell `(cx, cy)` of the value-accumulation loop:
`if image[x+1+cx][y+1+cy] == set { final_value += 1 << (cy*(delta-1)+cx) }`. -/
def calc_cell (iw : Image) (x y set delta cy cx : Nat) (acc : Int) : Except Err Int :=
  match iw.get (x + 1 + cx) (y + 1 + cy) with
  | .error e => .error e
  | .ok c =>
    if c = set then
      match shlOne (cy * (delta - 1) + cx) with
      | .error e => .error e
      | .ok bit => addI32 acc bit
    else .ok acc

/-- The inner (`cx`) loop of the value accumulation. -/
def calc_row (iw : Image) (x y set delta cy : Nat) (acc : Int) : Except Err Int :=
  exceptFold (fun a cx => calc_cell iw x y set delta cy cx a) acc (List.range (delta - 1))

/-- The full value accumulation (`final_value`) of `try_parse_symbol`. -/
def calc_value (iw : Image) (x y set delta : Nat) : Except Err Int :=
  exceptFold (fun a cy => calc_row iw x y set delta cy a) 0 (List.range (delta - 1))

/-- The anchor test of `try_parse_symbol`:
`image[x+1][y] == set && image[x][y+1] == set && image[x-1][y] != set &&
image[x][y-1] != set`, with `&&` short-circuiting (so `x - 1` is only
computed after the first two probes succeed; `x - 1` for `x = 0` is a
`usize` underflow panic, modelled as `Err.underflow`). -/
def anchor_test (iw : Image) (x y set : Nat) : Except Err Bool :=
  match iw.get (x + 1) y with
  | .error e => .error e
  | .ok a =>
    if a ≠ set then .ok false
    else
      match iw.get x (y + 1) with
      | .error e => .error e
      | .ok b =>
        if b ≠ set then .ok false
        else
          if x = 0 then .error .underflow
          else
            match iw.get (x - 1) y with
            | .error e => .error e
            | .ok c =>
              if c = set then .ok false
              else
                if y = 0 then .error .underflow
                else
                  match iw.get x (y - 1) with
                  | .error e => .error e
                  | .ok d => if d = set then .ok false else .ok true

/-- The body of `try_parse_symbol` with the recursive call abstracted as
`recurse` (invoked, as in the source, at `(x+1, y+1)` with polarity 0).
The source's local variables are inlined: `control_bit` is `c0 = set`
(where `c0` is the single read of `image[x][y]`), `delta` is
`find_delta iw x y set`, and the classification pair `(glyph_type, glyph)`
is the two `if c0 = set ...` expressions repeated at each return site.
The second component of the result counts the `println!("Warning: ...")`
calls issued (the decode-anomaly warning). -/
def tps_body (iw : Image) (recurse : Nat → Nat → Nat → Except Err (ParseResult × Nat))
    (x y set : Nat) : Except Err (ParseResult × Nat) :=
  match anchor_test iw x y set with
  | .error e => .error e
  | .ok false => .ok (ParseResult.none, 0)
  | .ok true =>
    match iw.get x y with
    | .error e => .error e
    | .ok c0 =>
      match calc_value iw x y set (find_delta iw x y set) with
      | .error e => .error e
      | .ok v0 =>
        match iw.get x (y + find_delta iw x y set) with
        | .error e => .error e
        | .ok extra_bit =>
          match (if extra_bit = set then negI32 v0 else .ok v0) with
          | .error e => .error e
          | .ok final_value =>
            match (if c0 = set then is_full_frame iw x y (find_delta iw x y set)
                   else .ok false) with
            | .error e => .error e
            | .ok ff =>
              if c0 = set ∧ ff = true ∧ set = 1 then
                match recurse (x + 1) (y + 1) 0 with
                | .error e => .error e
                | .ok (ParseResult.none, w) =>
                  .ok (ParseResult.genericGlyph (find_delta iw x y set)
                         (find_delta iw x y set + extra_bit) final_value
                         (if c0 = set then GlyphType.Command else GlyphType.Ineteger)
                         (if c0 = set then Glyph.Command final_value
                          else Glyph.Integer final_value),
                       w + 1)
                | .ok (ParseResult.genericGlyph _ _ value _ _, w) =>
                  .ok (ParseResult.genericGlyph (find_delta iw x y set)
                         (find_delta iw x y set + extra_bit) final_value
                         GlyphType.Variable (Glyph.Variable value), w)
              else
                .ok (ParseResult.genericGlyph (find_delta iw x y set)
                       (find_delta iw x y set + extra_bit) final_value
                       (if c0 = set then GlyphType.Command else GlyphType.Ineteger)
                       (if c0 = set then Glyph.Command final_value
                        else Glyph.Integer final_value),
                     0)

/-- `try_parse_symbol` with structural recursion fuel.  In the source the
recursive call is guarded by `set == 1` and passes `set = 0`, so the
recursion depth is at most 1; fuel 1 is exact and `Err.fuelExhausted` is
unreachable from `try_parse_symbol` (see `try_parse_symbol_fuel_zero`). -/
def try_parse_symbol_fuel (iw : Image) : Nat → Nat → Nat → Nat → Except Err (ParseResult × Nat)
  | 0 => tps_body iw (fun _ _ _ => .error .fuelExhausted)
  | fuel + 1 => tps_body iw (try_parse_symbol_fuel iw fuel)

/-- `try_parse_symbol` of the Rust code. -/
def try_parse_symbol (iw : Image) (x y set : Nat) : Except Err (ParseResult × Nat) :=
  try_parse_symbol_fuel iw 1 x y set

/-- The consumption mask `BooleanGrid = Vec<Vec<bool>>`, as a total function
(the scanner only ever writes cells of successfully parsed glyphs, which are
in bounds, see `mark_parsed` in the source). -/
abbrev BooleanGrid := Nat → Nat → Bool

/-- `mark_parsed`: set every cell of the rectangle `[x, x+dx) × [y, y+dy)`. -/
def mark_parsed (parsed : BooleanGrid) (x y dx dy : Nat) : BooleanGrid :=
  fun a b => if x ≤ a ∧ a < x + dx ∧ y ≤ b ∧ b < y + dy then true else parsed a b

/-- One glyph as reported to the SVG collaborator by `svg.add_annotation`
(anchor, extent, value, classification). -/
structure GlyphRec where
  x : Nat
  y : Nat
  dx : Nat
  dy : Nat
  value : Int
  glyph_type : GlyphType
  glyph : Glyph
  deriving DecidableEq

/-- The state threaded through `parse_image`: the mutable mask, the list of
glyphs handed to the renderer (in emission order), the token stream `codes`,
and the total number of warnings printed. -/
structure ScanState where
  parsed : BooleanGrid
  log : List GlyphRec
  codes : List Token
  warnings : Nat

/-- The body of `parse_image`'s double loop at one position `(x, y)`. -/
def scan_step (iw : Image) (st : ScanState) : Nat × Nat → Except Err ScanState
  | (x, y) =>
    if st.parsed x y then .ok st
    else
      match try_parse_symbol iw x y 1 with
      | .error e => .error e
      | .ok (ParseResult.none, w) => .ok { st with warnings := st.warnings + w }
      | .ok (ParseResult.genericGlyph dx dy value gt g, w) =>
        .ok { parsed := mark_parsed st.parsed x y dx dy,
              log := st.log ++ [⟨x, y, dx, dy, value, gt, g⟩],
              codes := st.codes ++
                (if gt = GlyphType.Command ∨ gt = GlyphType.Variable then [(value, g)] else []),
              warnings := st.warnings + w }

/-- The scan order of `parse_image`: `for y in 1..(height-2)`, inside it
`for x in 1..(width-2)` (ascending `y`, then ascending `x`). -/
def scan_positions (iw : Image) : List (Nat × Nat) :=
  (List.range' 1 (iw.height - 2 - 1)).flatMap
    (fun y => (List.range' 1 (iw.width - 2 - 1)).map (fun x => (x, y)))

/-- `parse_image` of the Rust code.  `height - 2` and `width - 2` are `usize`
subtractions, which panic (debug) when the dimension is below 2. -/
def parse_image (iw : Image) (parsed0 : BooleanGrid) : Except Err ScanState :=
  if iw.height < 2 ∨ iw.width < 2 then .error .underflow
  else exceptFold (scan_step iw) ⟨parsed0, [], [], 0⟩ (scan_positions iw)

/-! ## The encoder -/

/-- Least `k` with `m ≤ 2 ^ k`, by bounded linear search (structural, so it
evaluates by `rfl`/`decide`). -/
def clog2_go (m : Nat) : Nat → Nat → Nat
  | k, 0 => k
  | k, fuel + 1 => if m ≤ 2 ^ k then k else clog2_go m (k + 1) fuel

/-- `⌈log₂ m⌉` for `m ≥ 1`: exact-arithmetic model of
`(m as f32).log2().ceil()` in the Rust encoder.  The `f32` pipeline can
return one less when `m` sits just above a power of two `2^k` and the cast
(for `k ≥ 24`) or the `log2` (for `k ≥ 21`, when the exact result lies
within an `f32` half-ulp of `k`) rounds down across the integer boundary;
e.g. `m = 2^25 + 1` casts to `2^25` and yields 25 where this model yields
26.  The theorems below use the model only where the two agree on the
derived frame side `d = ⌈sqrt ⌈log₂ m⌉⌉`: for `m ≤ 2^25` such a one-off
disagreement moves `⌈log₂⌉` between some `k` and `k + 1` with
`21 ≤ k < k + 1 ≤ 25`, and `21..25` all lie in the same `⌈sqrt⌉` bucket
`17..25 ↦ 5`, so `d` is unchanged (boundaries `2^k` with `k < 21` are more than
several `f32` ulps away from the nearest integer `log2`, so no real libm
rounds them down); and at `m` an exact power of two both the cast and the
`log2` are exact. -/
def nat_clog2 (m : Nat) : Nat :=
  clog2_go m 0 m

/-- Least `k` with `n ≤ k * k`, by bounded linear search: `⌈sqrt n⌉`, the
exact-arithmetic model of `ln.sqrt().ceil()` in the Rust encoder. -/
def csqrt_go (n : Nat) : Nat → Nat → Nat
  | k, 0 => k
  | k, fuel + 1 => if n ≤ k * k then k else csqrt_go n (k + 1) fuel

/-- `⌈sqrt n⌉`. -/
def nat_sqrt_ceil (n : Nat) : Nat :=
  csqrt_go n 0 n

/-- The frame side `d` of `encode_symbol`, i.e. the source's
`let ln = if value == 0 { 1.0 } else { ((value+1) as f32).log2().ceil() };`
`let d = ln.sqrt().ceil() as usize;` in exact arithmetic:
`d = ceil(sqrt(if v == 0 { 1 } else { ceil(log2(v+1)) }))`.  Per the note on
`nat_clog2`, this equals the `f32` computation for every `v < 2^25` and for
every `v + 1` an exact power of two (the `sqrt`/`ceil` half is exact: `f32`
`sqrt` is IEEE-correctly rounded and the arguments 1..36 are tiny). -/
def encode_d (v : Nat) : Nat :=
  nat_sqrt_ceil (if v = 0 then 1 else nat_clog2 (v + 1))

/-- Pointwise update of a grid function (one `image[a][b] = v` write). -/
def upd2 (g : Nat → Nat → Nat) (a b v : Nat) : Nat → Nat → Nat :=
  fun x y => if x = a ∧ y = b then v else g x y

/-- The border loop of `encode_symbol`:
`for i in 0..=d { image[i][0] = 1; image[0][i] = 1; }`. -/
def encode_border (g : Nat → Nat → Nat) (d : Nat) : Nat → Nat → Nat :=
  (List.range (d + 1)).foldl (fun g i => upd2 (upd2 g i 0 1) 0 i 1) g

/-- The iteration domain of the body-bit loop: `cy` outer, `cx` inner. -/
def encode_pairs (d : Nat) : List (Nat × Nat) :=
  (List.range d).flatMap (fun cy => (List.range d).map (fun cx => (cy, cx)))

/-- One body-bit iteration of `encode_symbol`:
`let bit = 1 << (cx + cy * d); if (value & bit) > 0 { image[1+cx][1+cy] = 1 }`.
The shift is an `i32` shift, so it aborts at exponent ≥ 32 whether or not the
bit is set.  For `0 ≤ value < 2^31` the test `(value & (1 << e)) > 0` equals
`value.testBit e` (at `e = 31` the wrapped `bit` is `i32::MIN` and the `&`
of a non-negative `i32` with it is 0, matching `testBit 31 = false`). -/
def encode_bit_step (v d : Nat) (g : Nat → Nat → Nat) (p : Nat × Nat) :
    Except Err (Nat → Nat → Nat) :=
  match shlOne (p.2 + p.1 * d) with
  | .error e => .error e
  | .ok _bit =>
    if Nat.testBit v (p.2 + p.1 * d) then .ok (upd2 g (1 + p.2) (1 + p.1) 1) else .ok g

/-- `encode_symbol` of the Rust code.  `assert!(value >= 0)` is the
`Err.assertFail` branch; `create_empty_image (d+1) (d+1)` is the all-zero
function together with the dimensions recorded in the `Image` result. -/
def encode_symbol (value : Int) : Except Err Image :=
  if value < 0 then .error .assertFail
  else
    let v := value.toNat
    let d := encode_d v
    match exceptFold (encode_bit_step v d) (encode_border (fun _ _ => 0) d) (encode_pairs d) with
    | .error e => .error e
    | .ok g2 => .ok ⟨d + 1, d + 1, g2⟩

/-! ## Concrete grids used by the counterexamples and witnesses -/

/-- A concrete grid: the listed cells are white (1), everything else black. -/
def gridOfList (w h : Nat) (ones : List (Nat × Nat)) : Image :=
  ⟨w, h, fun a b => if (a, b) ∈ ones then 1 else 0⟩

/-- The spec's §8 concrete scenario: a 3×3 frame with both body bits set and
the anchor cell unset, embedded at (1,1) of a larger grid. -/
def exScenario : Image := gridOfList 7 7 [(2,1),(3,1),(1,2),(1,3),(2,2),(3,2)]

/-- A polarity-0 glyph whose sign cell equals the polarity (black): delta 2,
one body bit. -/
def gSignP0 : Image := gridOfList 5 5 [(0,1),(1,0),(3,1),(1,1)]

/-- A glyph of extent 7 whose single set body bit sits at shift exponent 32. -/
def gShift32 : Image :=
  gridOfList 12 12
    [(2,1),(3,1),(4,1),(5,1),(6,1),(7,1),(1,2),(1,3),(1,4),(1,5),(1,6),(1,7),(4,7)]

/-- A glyph of extent 10 whose single set body bit sits at shift exponent 80. -/
def gShift80 : Image :=
  gridOfList 12 12
    [(2,1),(3,1),(4,1),(5,1),(6,1),(7,1),(8,1),(9,1),(10,1),
     (1,2),(1,3),(1,4),(1,5),(1,6),(1,7),(1,8),(1,9),(1,10),(10,10)]

/-- A glyph of extent 6 with the body bit of largest exponent (24) set. -/
def gDelta6 : Image :=
  gridOfList 12 12
    [(2,1),(3,1),(4,1),(5,1),(6,1),(1,2),(1,3),(1,4),(1,5),(1,6),(6,6)]

/-- A glyph whose vertical arm runs to the last row: the growth loop stops on
the boundary guard with `y + delta = height` and the sign-cell read indexes
out of bounds. -/
def gSignOob : Image := gridOfList 6 4 [(2,1),(1,2),(3,1),(1,3)]

/-- A glyph stopped by the horizontal boundary guard (`x + delta = width`)
while `y + delta < height`: the sign-cell read is in bounds, and both probe
cells of the would-be next growth step hold the polarity color in the
underlying data (the horizontal one lies outside the grid). -/
def gStopX : Image := gridOfList 4 10 [(2,1),(1,2),(3,1),(1,3),(4,1),(1,4)]

/-- A solid 4×4 white block: a full-frame command glyph whose interior fails
the polarity-0 anchor test. -/
def gAnomaly : Image :=
  gridOfList 8 8 ((List.range 4).flatMap (fun a => (List.range 4).map (fun b => (1 + a, 1 + b))))

/-- A grid with two glyphs whose consumed bounding boxes overlap at (5,2):
a 2×2 glyph at (5,1) and a later 5×5 glyph at (1,2). -/
def gOverlap : Image :=
  gridOfList 12 10 [(6,1),(5,2),(2,2),(3,2),(4,2),(1,3),(1,4),(1,5),(1,6)]

/-- A grid with a Command glyph at (1,1) and an Integer glyph at (5,1). -/
def gTwo : Image := gridOfList 10 6 [(1,1),(2,1),(1,2),(6,1),(5,2)]

/-- The all-false consumption mask `parse_file` starts from. -/
def emptyMask : BooleanGrid := fun _ _ => false

/-! ## The delta-growth loop, characterized -/

/-- The growth condition of the `delta` loop at distance `v`: both probe
cells exist and have the polarity color. -/
def armOK (iw : Image) (x y set v : Nat) : Prop :=
  x + v < iw.width ∧ y + v < iw.height ∧
    iw.data (x + v) y = set ∧ iw.data x (y + v) = set

instance (iw : Image) (x y set v : Nat) : Decidable (armOK iw x y set v) := by
  unfold armOK; infer_instance

theorem find_delta_loop_spec (iw : Image) (x y set : Nat) :
    ∀ fuel delta, 1 ≤ delta → delta ≤ 10 → 10 ≤ delta + fuel →
      delta ≤ find_delta_loop iw x y set delta fuel ∧
      find_delta_loop iw x y set delta fuel ≤ 10 ∧
      (∀ v, delta ≤ v → v < find_delta_loop iw x y set delta fuel → armOK iw x y set v) ∧
      (find_delta_loop iw x y set delta fuel = 10 ∨
        ¬ armOK iw x y set (find_delta_loop iw x y set delta fuel))
  | 0, delta, _h1, h2, h3 => by
    simp only [find_delta_loop]
    exact ⟨le_refl _, h2, fun v hv1 hv2 => absurd hv2 (by omega), Or.inl (by omega)⟩
  | fuel + 1, delta, h1, h2, h3 => by
    simp only [find_delta_loop]
    by_cases hlt : delta < 10
    · simp only [hlt, if_true]
      by_cases hg : x + delta ≥ iw.width ∨ y + delta ≥ iw.height
      · simp only [hg, if_true]
        refine ⟨le_refl _, h2, fun v hv1 hv2 => absurd hv2 (by omega), Or.inr ?_⟩
        intro ⟨hw, hh, _, _⟩; omega
      · simp only [hg, if_false]
        by_cases hm : iw.data (x + delta) y ≠ set ∨ iw.data x (y + delta) ≠ set
        · simp only [hm, if_true]
          refine ⟨le_refl _, h2, fun v hv1 hv2 => absurd hv2 (by omega), Or.inr ?_⟩
          intro ⟨_, _, hd1, hd2⟩
          rcases hm with hm | hm <;> exact hm (by assumption)
        · simp only [hm, if_false]
          have IH := find_delta_loop_spec iw x y set fuel (delta + 1)
            (by omega) (by omega) (by omega)
          push_neg at hg hm
          refine ⟨by omega, IH.2.1, ?_, IH.2.2.2⟩
          intro v hv1 hv2
          rcases Nat.eq_or_lt_of_le hv1 with rfl | hv
          · exact ⟨by omega, by omega, hm.1, hm.2⟩
          · exact IH.2.2.1 v (by omega) hv2
    · simp only [hlt, if_false]
      exact ⟨le_refl _, h2, fun v hv1 hv2 => absurd hv2 (by omega), Or.inl (by omega)⟩

/-- The result of the growth loop: it starts at 1, never exceeds 10, every
distance below it satisfied the growth condition, and it stopped either at
the bound 10 or at the first failing distance. -/
theorem find_delta_spec (iw : Image) (x y set : Nat) :
    1 ≤ find_delta iw x y set ∧
    find_delta iw x y set ≤ 10 ∧
    (∀ v, 1 ≤ v → v < find_delta iw x y set → armOK iw x y set v) ∧
    (find_delta iw x y set = 10 ∨ ¬ armOK iw x y set (find_delta iw x y set)) :=
  find_delta_loop_spec iw x y set 10 1 (by omega) (by omega) (by omega)

/-- The characterization determines `find_delta` uniquely. -/
theorem find_delta_eq_of (iw : Image) (x y set D : Nat)
    (hD1 : 1 ≤ D) (hD10 : D ≤ 10)
    (harms : ∀ v, 1 ≤ v → v < D → armOK iw x y set v)
    (hstop : D = 10 ∨ ¬ armOK iw x y set D) :
    find_delta iw x y set = D := by
  obtain ⟨s1, s10, sarms, sstop⟩ := find_delta_spec iw x y set
  rcases Nat.lt_trichotomy (find_delta iw x y set) D with h | h | h
  · exfalso
    rcases sstop with h10 | hnot
    · omega
    · exact hnot (harms _ s1 h)
  · exact h
  · exfalso
    rcases hstop with h10 | hnot
    · omega
    · exact hnot (sarms _ hD1 h)

/-! ## The anchor test, characterized -/

/-- On interior cells (all four probes in bounds) the anchor test is exactly
the four-cell condition of the spec. -/
theorem anchor_test_char (iw : Image) (x y set : Nat)
    (hx1 : 1 ≤ x) (hy1 : 1 ≤ y) (hxw : x + 1 < iw.width) (hyh : y + 1 < iw.height) :
    anchor_test iw x y set =
      .ok (decide (iw.data (x + 1) y = set ∧ iw.data x (y + 1) = set ∧
                   iw.data (x - 1) y ≠ set ∧ iw.data x (y - 1) ≠ set)) := by
  have g1 : iw.get (x + 1) y = .ok (iw.data (x + 1) y) := by
    simp only [Image.get, if_pos (by omega : x + 1 < iw.width ∧ y < iw.height)]
  have g2 : iw.get x (y + 1) = .ok (iw.data x (y + 1)) := by
    simp only [Image.get, if_pos (by omega : x < iw.width ∧ y + 1 < iw.height)]
  have g3 : iw.get (x - 1) y = .ok (iw.data (x - 1) y) := by
    simp only [Image.get, if_pos (by omega : x - 1 < iw.width ∧ y < iw.height)]
  have g4 : iw.get x (y - 1) = .ok (iw.data x (y - 1)) := by
    simp only [Image.get, if_pos (by omega : x < iw.width ∧ y - 1 < iw.height)]
  unfold anchor_test
  rw [g1, g2, g3, g4]
  by_cases h1 : iw.data (x + 1) y = set <;>
    by_cases h2 : iw.data x (y + 1) = set <;>
      by_cases h3 : iw.data (x - 1) y = set <;>
        by_cases h4 : iw.data x (y - 1) = set <;>
          simp [h1, h2, h3, h4, show ¬ x = 0 by omega, show ¬ y = 0 by omega]

/-! ## The payload accumulation, characterized -/

/-- The spec's payload term for body offset `(cx, cy)`:
`2 ^ (cy*(delta-1)+cx)` when the cell has the polarity color, else 0. -/
def bodyTerm (iw : Image) (x y set delta cy cx : Nat) : Int :=
  if iw.data (x + 1 + cx) (y + 1 + cy) = set then (2 : Int) ^ (cy * (delta - 1) + cx) else 0

/-- Row `cy` of the spec's payload sum. -/
def specRowSum (iw : Image) (x y set delta cy : Nat) : Int :=
  ((List.range (delta - 1)).map (bodyTerm iw x y set delta cy)).sum

/-- The spec's payload magnitude: the sum, over body offsets
`0 ≤ cx, cy < delta - 1` whose cell has the polarity color, of
`2 ^ (cy*(delta-1)+cx)` (§4.2 of the spec, in exact arithmetic). -/
def specBodySum (iw : Image) (x y set delta : Nat) : Int :=
  ((List.range (delta - 1)).map (specRowSum iw x y set delta)).sum

theorem shlOne_small (e : Nat) (he : e ≤ 30) : shlOne e = .ok ((2 : Int) ^ e) := by
  unfold shlOne
  rw [if_neg (by omega), if_neg (by omega)]

theorem bodyTerm_nonneg (iw : Image) (x y set delta cy cx : Nat) :
    0 ≤ bodyTerm iw x y set delta cy cx := by
  unfold bodyTerm
  split <;> positivity

theorem calc_row_go (iw : Image) (x y set delta cy : Nat) :
    ∀ (n s : Nat) (acc : Int),
      0 ≤ acc → acc < 2 ^ (cy * (delta - 1) + s) →
      (∀ cx, s ≤ cx → cx < s + n → x + 1 + cx < iw.width) →
      y + 1 + cy < iw.height →
      (∀ cx, s ≤ cx → cx < s + n →
        iw.data (x + 1 + cx) (y + 1 + cy) = set → cy * (delta - 1) + cx ≤ 30) →
      exceptFold (fun a cx => calc_cell iw x y set delta cy cx a) acc (List.range' s n) =
        .ok (acc + ((List.range' s n).map (bodyTerm iw x y set delta cy)).sum) ∧
      0 ≤ acc + ((List.range' s n).map (bodyTerm iw x y set delta cy)).sum ∧
      acc + ((List.range' s n).map (bodyTerm iw x y set delta cy)).sum <
        2 ^ (cy * (delta - 1) + (s + n))
  | 0, s, acc, hnn, hlt, _hw, _hh, _he => by
    refine ⟨by simp [List.range', exceptFold], by simpa using hnn, by simpa using hlt⟩
  | n + 1, s, acc, hnn, hlt, hw, hh, he => by
    have hcons : List.range' s (n + 1) = s :: List.range' (s + 1) n := rfl
    rw [hcons]
    have hget : iw.get (x + 1 + s) (y + 1 + cy) = .ok (iw.data (x + 1 + s) (y + 1 + cy)) := by
      simp only [Image.get,
        if_pos (⟨hw s (le_refl s) (by omega), hh⟩ :
          x + 1 + s < iw.width ∧ y + 1 + cy < iw.height)]
    by_cases hset : iw.data (x + 1 + s) (y + 1 + cy) = set
    · have hexp : cy * (delta - 1) + s ≤ 30 := he s (le_refl s) (by omega) hset
      have hcell : calc_cell iw x y set delta cy s acc = .ok (acc + 2 ^ (cy * (delta - 1) + s)) := by
        unfold calc_cell
        rw [hget]
        simp only [hset, if_true, shlOne_small _ hexp]
        unfold addI32
        rw [if_pos]
        constructor
        · have h0 : (0 : Int) ≤ 2 ^ (cy * (delta - 1) + s) := by positivity
          unfold i32Min; omega
        · have hstep : acc + 2 ^ (cy * (delta - 1) + s) < 2 ^ (cy * (delta - 1) + s + 1) := by
            rw [pow_succ]; omega
          have hmono : (2 : Int) ^ (cy * (delta - 1) + s + 1) ≤ 2 ^ 31 := by
            apply pow_le_pow_right₀ (by omega) (by omega)
          unfold i32Max; omega
      have IH := calc_row_go iw x y set delta cy n (s + 1) (acc + 2 ^ (cy * (delta - 1) + s))
        (by have : (0:Int) ≤ 2 ^ (cy * (delta - 1) + s) := by positivity
            omega)
        (by rw [show cy * (delta - 1) + (s + 1) = cy * (delta - 1) + s + 1 by omega, pow_succ]
            omega)
        (fun cx h1 h2 => hw cx (by omega) (by omega)) hh
        (fun cx h1 h2 => he cx (by omega) (by omega))
      simp only [exceptFold, hcell]
      rw [IH.1]
      have hterm : bodyTerm iw x y set delta cy s = 2 ^ (cy * (delta - 1) + s) := by
        unfold bodyTerm; rw [if_pos hset]
      constructor
      · simp only [List.map_cons, List.sum_cons, hterm]; ring_nf
      constructor
      · simp only [List.map_cons, List.sum_cons, hterm]
        have := IH.2.1; omega
      · simp only [List.map_cons, List.sum_cons, hterm]
        have h2 := IH.2.2
        have harith : cy * (delta - 1) + (s + 1 + n) = cy * (delta - 1) + (s + (n + 1)) := by omega
        rw [harith] at h2; omega
    · have hcell : calc_cell iw x y set delta cy s acc = .ok acc := by
        unfold calc_cell
        rw [hget]
        simp only [hset, if_false]
      have IH := calc_row_go iw x y set delta cy n (s + 1) acc hnn
        (by have hmono : (2:Int) ^ (cy * (delta - 1) + s) ≤ 2 ^ (cy * (delta - 1) + (s + 1)) := by
              apply pow_le_pow_right₀ (by omega) (by omega)
            omega)
        (fun cx h1 h2 => hw cx (by omega) (by omega)) hh
        (fun cx h1 h2 => he cx (by omega) (by omega))
      simp only [exceptFold, hcell]
      rw [IH.1]
      have hterm : bodyTerm iw x y set delta cy s = 0 := by
        unfold bodyTerm; rw [if_neg hset]
      refine ⟨by simp [hterm], ?_, ?_⟩
      · simp only [List.map_cons, List.sum_cons, hterm, zero_add]
        exact IH.2.1
      · simp only [List.map_cons, List.sum_cons, hterm, zero_add]
        have h2 := IH.2.2
        have harith : cy * (delta - 1) + (s + 1 + n) = cy * (delta - 1) + (s + (n + 1)) := by omega
        rw [harith] at h2; exact h2

theorem calc_row_spec (iw : Image) (x y set delta cy : Nat) (acc : Int)
    (hnn : 0 ≤ acc) (hlt : acc < 2 ^ (cy * (delta - 1)))
    (hw : ∀ cx, cx < delta - 1 → x + 1 + cx < iw.width)
    (hh : y + 1 + cy < iw.height)
    (he : ∀ cx, cx < delta - 1 →
      iw.data (x + 1 + cx) (y + 1 + cy) = set → cy * (delta - 1) + cx ≤ 30) :
    calc_row iw x y set delta cy acc = .ok (acc + specRowSum iw x y set delta cy) ∧
    0 ≤ acc + specRowSum iw x y set delta cy ∧
    acc + specRowSum iw x y set delta cy < 2 ^ ((cy + 1) * (delta - 1)) := by
  have h := calc_row_go iw x y set delta cy (delta - 1) 0 acc hnn (by simpa using hlt)
    (fun cx _ h2 => hw cx (by omega)) hh (fun cx _ h2 => he cx (by omega))
  rw [← List.range_eq_range'] at h
  unfold calc_row specRowSum
  refine ⟨h.1, h.2.1, ?_⟩
  have := h.2.2
  have harith : cy * (delta - 1) + (0 + (delta - 1)) = (cy + 1) * (delta - 1) := by ring
  rw [harith] at this
  exact this

theorem calc_value_go (iw : Image) (x y set delta : Nat) :
    ∀ (n s : Nat) (acc : Int),
      0 ≤ acc → acc < 2 ^ (s * (delta - 1)) →
      (∀ cx cy, cx < delta - 1 → s ≤ cy → cy < s + n →
        x + 1 + cx < iw.width ∧ y + 1 + cy < iw.height) →
      (∀ cx cy, cx < delta - 1 → s ≤ cy → cy < s + n →
        iw.data (x + 1 + cx) (y + 1 + cy) = set → cy * (delta - 1) + cx ≤ 30) →
      exceptFold (fun a cy => calc_row iw x y set delta cy a) acc (List.range' s n) =
        .ok (acc + ((List.range' s n).map (specRowSum iw x y set delta)).sum) ∧
      0 ≤ acc + ((List.range' s n).map (specRowSum iw x y set delta)).sum ∧
      acc + ((List.range' s n).map (specRowSum iw x y set delta)).sum <
        2 ^ ((s + n) * (delta - 1))
  | 0, s, acc, hnn, hlt, _hb, _he => by
    refine ⟨by simp [List.range', exceptFold], by simpa using hnn, by simpa using hlt⟩
  | n + 1, s, acc, hnn, hlt, hb, he => by
    have hcons : List.range' s (n + 1) = s :: List.range' (s + 1) n := rfl
    rw [hcons]
    by_cases hrow : delta - 1 = 0
    · -- empty rows: every row sum is zero and every fold step is the identity
      have hrowval : calc_row iw x y set delta s acc = .ok acc := by
        unfold calc_row; rw [hrow]; rfl
      have IH := calc_value_go iw x y set delta n (s + 1) acc hnn
        (by rw [hrow] at hlt ⊢
            simpa using (by simpa using hlt : acc < 2 ^ 0))
        (fun cx cy h1 h2 h3 => hb cx cy h1 (by omega) (by omega))
        (fun cx cy h1 h2 h3 => he cx cy h1 (by omega) (by omega))
      simp only [exceptFold, hrowval]
      rw [IH.1]
      have hterm : specRowSum iw x y set delta s = 0 := by
        unfold specRowSum; rw [hrow]; rfl
      refine ⟨by simp [hterm], ?_, ?_⟩
      · simp only [List.map_cons, List.sum_cons, hterm, zero_add]; exact IH.2.1
      · simp only [List.map_cons, List.sum_cons, hterm, zero_add]
        have h2 := IH.2.2
        have harith : (s + 1 + n) * (delta - 1) = (s + (n + 1)) * (delta - 1) := by ring_nf
        rw [harith] at h2; exact h2
    · have hhh : y + 1 + s < iw.height := (hb 0 s (by omega) (le_refl s) (by omega)).2
      have hrowres := calc_row_spec iw x y set delta s acc hnn
        (by have harith : s * (delta - 1) = s * (delta - 1) + 0 := by omega
            simpa using hlt)
        (fun cx h1 => (hb cx s h1 (le_refl s) (by omega)).1) hhh
        (fun cx h1 => he cx s h1 (le_refl s) (by omega))
      have IH := calc_value_go iw x y set delta n (s + 1) (acc + specRowSum iw x y set delta s)
        hrowres.2.1
        (by have := hrowres.2.2
            have harith : (s + 1) * (delta - 1) = (s + 1) * (delta - 1) := rfl
            simpa using this)
        (fun cx cy h1 h2 h3 => hb cx cy h1 (by omega) (by omega))
        (fun cx cy h1 h2 h3 => he cx cy h1 (by omega) (by omega))
      simp only [exceptFold, hrowres.1]
      rw [IH.1]
      refine ⟨?_, ?_, ?_⟩
      · simp only [List.map_cons, List.sum_cons]; ring_nf
      · simp only [List.map_cons, List.sum_cons]
        have := IH.2.1; omega
      · simp only [List.map_cons, List.sum_cons]
        have h2 := IH.2.2
        have harith : (s + 1 + n) * (delta - 1) = (s + (n + 1)) * (delta - 1) := by ring_nf
        rw [harith] at h2; omega

/-- When every body read is in bounds and every set body bit has shift
exponent at most 30, the accumulation loop completes and computes exactly
the spec's payload sum. -/
theorem calc_value_spec (iw : Image) (x y set delta : Nat)
    (hb : ∀ cx cy, cx < delta - 1 → cy < delta - 1 →
      x + 1 + cx < iw.width ∧ y + 1 + cy < iw.height)
    (he : ∀ cx cy, cx < delta - 1 → cy < delta - 1 →
      iw.data (x + 1 + cx) (y + 1 + cy) = set → cy * (delta - 1) + cx ≤ 30) :
    calc_value iw x y set delta = .ok (specBodySum iw x y set delta) := by
  have h := calc_value_go iw x y set delta (delta - 1) 0 0 (le_refl 0) (by simp)
    (fun cx cy h1 _ h3 => hb cx cy h1 (by omega))
    (fun cx cy h1 _ h3 => he cx cy h1 (by omega))
  rw [← List.range_eq_range'] at h
  unfold calc_value specBodySum
  rw [h.1]
  simp

/-! ## Errors the accumulation loop cannot raise -/

/-- If no single step of an error-propagating fold can produce a given
error, neither can the fold. -/
theorem exceptFold_ne_error {σ α : Type} (f : σ → α → Except Err σ) (bad : Err) :
    ∀ (l : List α) (s : σ), (∀ s' a, a ∈ l → f s' a ≠ .error bad) →
      exceptFold f s l ≠ .error bad
  | [], s, _ => by simp [exceptFold]
  | a :: l, s, h => by
    unfold exceptFold
    cases hf : f s a with
    | error e =>
      intro hcontra
      injection hcontra with h'
      exact h s a (by simp) (by rw [hf, h'])
    | ok s' =>
      exact exceptFold_ne_error f bad l s' (fun s'' a' ha' => h s'' a' (by simp [ha']))

theorem calc_cell_ne_shiftOvf (iw : Image) (x y set delta cy cx : Nat) (acc : Int) (e : Nat)
    (hlt : cy * (delta - 1) + cx < 32) :
    calc_cell iw x y set delta cy cx acc ≠ .error (.shiftOvf e) := by
  intro hcontra
  unfold calc_cell at hcontra
  split at hcontra
  next e' heq =>
    injection hcontra with h1
    subst h1
    unfold Image.get at heq
    split at heq <;> simp_all
  next c heq =>
    split at hcontra
    · unfold shlOne at hcontra
      rw [if_neg (by omega)] at hcontra
      split at hcontra
      next e'' heq2 =>
        split at heq2 <;> simp_all
      next bit heq2 =>
        unfold addI32 at hcontra
        split at hcontra <;> simp_all
    · simp_all

theorem calc_row_ne_shiftOvf (iw : Image) (x y set delta cy : Nat) (acc : Int) (e : Nat)
    (hd : delta ≤ 6) (hcy : cy < delta - 1) :
    calc_row iw x y set delta cy acc ≠ .error (.shiftOvf e) := by
  unfold calc_row
  apply exceptFold_ne_error
  intro s' cx hcx
  have hcxlt : cx < delta - 1 := List.mem_range.mp hcx
  apply calc_cell_ne_shiftOvf
  have h1 : cy * (delta - 1) ≤ 4 * 5 := Nat.mul_le_mul (by omega) (by omega)
  omega

theorem calc_value_ne_shiftOvf (iw : Image) (x y set delta : Nat) (e : Nat)
    (hd : delta ≤ 6) :
    calc_value iw x y set delta ≠ .error (.shiftOvf e) := by
  unfold calc_value
  apply exceptFold_ne_error
  intro s' cy hcy
  exact calc_row_ne_shiftOvf iw x y set delta cy s' e hd (List.mem_range.mp hcy)

/-- A glyph of extent 7 whose single set body bit has offset `(cx, cy) =
(1, 5)`, that is shift exponent `5*6+1 = 31`: the `i32` shift wraps to
`i32::MIN` so the accumulated "magnitude" is negative. -/
def gE31 : Image :=
  gridOfList 12 12
    [(2,1),(3,1),(4,1),(5,1),(6,1),(7,1),(1,2),(1,3),(1,4),(1,5),(1,6),(1,7),(3,7)]

/-! ## Claim C3 -/

/-- C3, counterexample.  First, the claim's concrete scenario is off by one:
the 3×3 frame with both body bits set and anchor unset decodes with
`delta = 3` and extent `(3, 3)` (value 3), not `delta = 2` and `(2, 2)`
(a 3×3 frame has arms of length 3, and `delta = 2` would leave room for
only one body bit, making value 3 impossible).  Second, the magnitude
formula fails at shift exponent 31: in `gE31` the only set body bit has
exponent `5*6+1 = 31`, the spec's sum is `2^31`, but the code accumulates
the wrapped `i32` value `-2^31`. -/
theorem C3_counterexample :
    try_parse_symbol exScenario 1 1 1 =
      .ok (.genericGlyph 3 3 3 .Ineteger (.Integer 3), 0) ∧
    find_delta exScenario 1 1 1 = 3 ∧
    calc_value gE31 1 1 1 7 = .ok (-(2 ^ 31)) ∧
    specBodySum gE31 1 1 1 7 = 2 ^ 31 ∧
    find_delta gE31 1 1 1 = 7 := by
  refine ⟨by rfl, by rfl, by rfl, ?_, by rfl⟩
  decide

/-- C3, amended: for every glyph the extent `delta` is found by growing from
1 while both probe cells exist and hold the polarity color, stopping at the
first failing distance or at the fixed upper bound 10; and whenever every
body read is in bounds and every set body offset has shift exponent at most
30 the accumulated magnitude is exactly the sum, over set body offsets, of
`2^(cy*(delta-1)+cx)` (the original claim's unqualified formula fails at
exponent 31, and its concrete scenario has `delta = 3`, extent `(3, 3)`). -/
theorem C3_extent_and_magnitude :
    (∀ iw x y set,
      1 ≤ find_delta iw x y set ∧ find_delta iw x y set ≤ 10 ∧
      (∀ v, 1 ≤ v → v < find_delta iw x y set → armOK iw x y set v) ∧
      (find_delta iw x y set = 10 ∨ ¬ armOK iw x y set (find_delta iw x y set))) ∧
    (∀ iw x y set delta,
      (∀ cx cy, cx < delta - 1 → cy < delta - 1 →
        x + 1 + cx < iw.width ∧ y + 1 + cy < iw.height) →
      (∀ cx cy, cx < delta - 1 → cy < delta - 1 →
        iw.data (x + 1 + cx) (y + 1 + cy) = set → cy * (delta - 1) + cx ≤ 30) →
      calc_value iw x y set delta = .ok (specBodySum iw x y set delta)) :=
  ⟨fun iw x y set => find_delta_spec iw x y set,
   fun iw x y set delta hb he => calc_value_spec iw x y set delta hb he⟩

/-- C3, witness: the amended claim evaluated on the (corrected) concrete
scenario grid: the growth condition holds at distances 1 and 2 and fails at
3, the accumulation computes the spec sum, which is 3, and the full decode
yields an Integer glyph of value 3 with extent `(3, 3)`. -/
theorem C3_extent_and_magnitude_witness :
    find_delta exScenario 1 1 1 = 3 ∧
    armOK exScenario 1 1 1 1 ∧ armOK exScenario 1 1 1 2 ∧
    ¬ armOK exScenario 1 1 1 3 ∧
    calc_value exScenario 1 1 1 3 = .ok (specBodySum exScenario 1 1 1 3) ∧
    specBodySum exScenario 1 1 1 3 = 3 ∧
    try_parse_symbol exScenario 1 1 1 =
      .ok (.genericGlyph 3 3 3 .Ineteger (.Integer 3), 0) := by
  refine ⟨by rfl, by decide, by decide, by decide, ?_, by decide, by rfl⟩
  exact C3_extent_and_magnitude.2 exScenario 1 1 1 3
    (fun cx cy h1 h2 => by
      constructor <;> simp only [exScenario, gridOfList] <;> omega)
    (fun cx cy h1 h2 _ => by omega)

/-! ## Claim C9 -/

/-- C9: the shift exponent `cy*(delta-1)+cx` applied to the 32-bit
accumulator stays below 32 for every glyph extent `delta ≤ 6` (so the
accumulation never aborts with a shift-overflow there), but the growth
bound allows `delta` up to 10, and there are grids on which the decode
reaches shift amounts of 32 and even 80, outside the valid `i32` range
(the run aborts with the shift-overflow panic). -/
theorem C9_shift_exponents :
    (∀ iw x y set delta e, delta ≤ 6 →
      calc_value iw x y set delta ≠ .error (.shiftOvf e)) ∧
    try_parse_symbol gShift32 1 1 1 = .error (.shiftOvf 32) ∧
    try_parse_symbol gShift80 1 1 1 = .error (.shiftOvf 80) ∧
    find_delta gShift32 1 1 1 = 7 ∧ find_delta gShift80 1 1 1 = 10 :=
  ⟨fun iw x y set delta e hd => calc_value_ne_shiftOvf iw x y set delta e hd,
   by rfl, by rfl, by rfl, by rfl⟩

/-- C9, witness: the universal part applied to a concrete extent-6 glyph
whose body bit of largest exponent (24) is set: no shift overflow, and the
decode completes with value `2^24`. -/
theorem C9_shift_exponents_witness :
    calc_value gDelta6 1 1 1 6 ≠ .error (.shiftOvf 32) ∧
    calc_value gDelta6 1 1 1 6 = .ok (2 ^ 24) ∧
    try_parse_symbol gDelta6 1 1 1 =
      .ok (.genericGlyph 6 6 (2 ^ 24) .Ineteger (.Integer (2 ^ 24)), 0) :=
  ⟨C9_shift_exponents.1 gDelta6 1 1 1 6 32 (by omega), by rfl, by rfl⟩

/-! ## Claim C10 -/

/-- C10, counterexample to its universal part ("the sign-cell read is in
bounds only when growth stopped on a color mismatch or on the fixed
bound"): in `gStopX` the loop stops at `delta = 3` because of the
horizontal boundary guard (`x + delta = width`), not at the bound 10 and
not on a color mismatch (both probe cells of the would-be next step hold
the polarity color in the underlying data; the horizontal one lies beyond
the last column), yet `y + delta < height` and the sign-cell read succeeds:
the parse completes normally. -/
theorem C10_counterexample :
    try_parse_symbol gStopX 1 1 1 = .ok (.genericGlyph 3 4 0 .Ineteger (.Integer 0), 0) ∧
    find_delta gStopX 1 1 1 = 3 ∧
    gStopX.width = 4 ∧ gStopX.height = 10 ∧
    gStopX.data (1 + 3) 1 = 1 ∧ gStopX.data 1 (1 + 3) = 1 := by
  exact ⟨by rfl, by rfl, by rfl, by rfl, by decide, by decide⟩

/-- C10, amended: if the sign-cell read at `(x, y + delta)` is in bounds
(`y + delta < height`), the growth stopped at the fixed bound 10, at the
horizontal boundary guard, or on a color mismatch; and there is a grid
(`gSignOob`) on which the loop stops on the vertical boundary guard with
`y + delta` equal to the grid height and the subsequent sign-cell read
indexes out of bounds, aborting the run. -/
theorem C10_sign_read :
    (∀ iw x y set, y + find_delta iw x y set < iw.height →
      find_delta iw x y set = 10 ∨
      x + find_delta iw x y set ≥ iw.width ∨
      iw.data (x + find_delta iw x y set) y ≠ set ∨
      iw.data x (y + find_delta iw x y set) ≠ set) ∧
    try_parse_symbol gSignOob 1 1 1 = .error .oob ∧
    find_delta gSignOob 1 1 1 = 3 ∧
    1 + find_delta gSignOob 1 1 1 = gSignOob.height := by
  refine ⟨?_, by rfl, by rfl, by rfl⟩
  intro iw x y set hin
  obtain ⟨_, _, _, hstop⟩ := find_delta_spec iw x y set
  rcases hstop with h10 | hnot
  · exact Or.inl h10
  · unfold armOK at hnot
    push_neg at hnot
    by_cases hw : x + find_delta iw x y set < iw.width
    · by_cases h1 : iw.data (x + find_delta iw x y set) y = set
      · exact Or.inr (Or.inr (Or.inr (hnot hw hin h1)))
      · exact Or.inr (Or.inr (Or.inl h1))
    · exact Or.inr (Or.inl (by omega))

/-- C10, witness: the amended universal part applied to `gStopX`, whose
sign read is in bounds: the stop reason there is the horizontal guard. -/
theorem C10_sign_read_witness :
    find_delta gStopX 1 1 1 = 10 ∨
    1 + find_delta gStopX 1 1 1 ≥ gStopX.width ∨
    gStopX.data (1 + find_delta gStopX 1 1 1) 1 ≠ 1 ∨
    gStopX.data 1 (1 + find_delta gStopX 1 1 1) ≠ 1 :=
  C10_sign_read.1 gStopX 1 1 1 (by decide)

/-! ## Anatomy of try_parse_symbol -/

/-- The recursion argument is irrelevant when the polarity is not 1: the
guard of the recursive branch requires `set = 1`. -/
theorem tps_body_irrel (iw : Image)
    (r1 r2 : Nat → Nat → Nat → Except Err (ParseResult × Nat))
    (x y set : Nat) (hset : set ≠ 1) :
    tps_body iw r1 x y set = tps_body iw r2 x y set := by
  unfold tps_body
  cases anchor_test iw x y set with
  | error e => rfl
  | ok b =>
    cases b with
    | false => rfl
    | true =>
      simp only []
      cases iw.get x y with
      | error e => rfl
      | ok c0 =>
        simp only []
        cases calc_value iw x y set (find_delta iw x y set) with
        | error e => rfl
        | ok v0 =>
          simp only []
          cases iw.get x (y + find_delta iw x y set) with
          | error e => rfl
          | ok extra_bit =>
            simp only []
            cases (if extra_bit = set then negI32 v0 else (.ok v0 : Except Err Int)) with
            | error e => rfl
            | ok fv =>
              simp only []
              cases (if c0 = set then is_full_frame iw x y (find_delta iw x y set)
                     else .ok false) with
              | error e => rfl
              | ok ff =>
                simp only []
                have hng : ¬ (c0 = set ∧ ff = true ∧ set = 1) := fun hc => hset hc.2.2
                simp only [if_neg hng]

/-- At polarity 0 the fuel plays no role: the fuel-0 run equals the real one. -/
theorem try_parse_symbol_fuel_zero (iw : Image) (x y : Nat) :
    try_parse_symbol_fuel iw 0 x y 0 = try_parse_symbol iw x y 0 := by
  unfold try_parse_symbol try_parse_symbol_fuel
  exact tps_body_irrel iw _ _ x y 0 (by omega)

theorem try_parse_symbol_eq (iw : Image) (x y set : Nat) :
    try_parse_symbol iw x y set = tps_body iw (try_parse_symbol_fuel iw 0) x y set := rfl

/-- A "no glyph" answer happens exactly at a failed anchor test and carries
no warnings. -/
theorem tps_ok_none (iw : Image) (x y set w : Nat)
    (h : try_parse_symbol iw x y set = .ok (.none, w)) :
    anchor_test iw x y set = .ok false ∧ w = 0 := by
  rw [try_parse_symbol_eq] at h
  unfold tps_body at h
  repeat' split at h
  all_goals simp_all

theorem tps_of_anchor_false (iw : Image) (x y set : Nat)
    (h : anchor_test iw x y set = .ok false) :
    try_parse_symbol iw x y set = .ok (.none, 0) := by
  rw [try_parse_symbol_eq]
  unfold tps_body
  rw [h]

/-- Dissection of a successful glyph parse: the anchor test passed, the
extent is `find_delta`, the value is the (possibly negated) accumulated
magnitude, the vertical extent adds the numeric sign-cell value, and the
classification follows the control bit, the full-frame test and (at
polarity 1 with a full frame) the embedded parse. -/
theorem tps_ok_glyph (iw : Image) (x y set dx dy : Nat) (v : Int)
    (gt : GlyphType) (g : Glyph) (w : Nat)
    (h : try_parse_symbol iw x y set = .ok (.genericGlyph dx dy v gt g, w)) :
    anchor_test iw x y set = .ok true ∧
    dx = find_delta iw x y set ∧
    ∃ c0 m s, iw.get x y = .ok c0 ∧
      calc_value iw x y set (find_delta iw x y set) = .ok m ∧
      iw.get x (y + find_delta iw x y set) = .ok s ∧
      dy = find_delta iw x y set + s ∧
      (if s = set then negI32 m else .ok m) = .ok v ∧
      ∃ ff, (if c0 = set then is_full_frame iw x y (find_delta iw x y set)
             else .ok false) = .ok ff ∧
        (¬ (c0 = set ∧ ff = true ∧ set = 1) →
          w = 0 ∧ gt = (if c0 = set then GlyphType.Command else GlyphType.Ineteger) ∧
          g = (if c0 = set then Glyph.Command v else Glyph.Integer v)) ∧
        ((c0 = set ∧ ff = true ∧ set = 1) →
          (∃ w0, try_parse_symbol iw (x + 1) (y + 1) 0 = .ok (.none, w0) ∧ w = w0 + 1 ∧
            gt = GlyphType.Command ∧ g = Glyph.Command v) ∨
          (∃ dx' dy' v' gt' g' w0,
            try_parse_symbol iw (x + 1) (y + 1) 0 = .ok (.genericGlyph dx' dy' v' gt' g', w0) ∧
            w = w0 ∧ gt = GlyphType.Variable ∧ g = Glyph.Variable v')) := by
  rw [try_parse_symbol_eq] at h
  unfold tps_body at h
  split at h
  · simp at h
  · simp at h
  next hanch =>
    refine ⟨hanch, ?_⟩
    split at h
    · simp at h
    next c0 hc0 =>
      split at h
      · simp at h
      next m hm =>
        split at h
        · simp at h
        next s hs =>
          split at h
          · simp at h
          next fv hneg =>
            split at h
            · simp at h
            next ff hff =>
              split at h
              next hcond =>
                split at h
                · simp at h
                next w0 hrec =>
                  rw [try_parse_symbol_fuel_zero] at hrec
                  simp only [Except.ok.injEq, Prod.mk.injEq,
                    ParseResult.genericGlyph.injEq] at h
                  obtain ⟨⟨hdx, hdy, hv, hgt, hg⟩, hw⟩ := h
                  subst hv
                  refine ⟨hdx.symm, c0, m, s, hc0, hm, hs, hdy.symm, hneg, ff, hff,
                    fun hn => absurd hcond hn, fun _ => Or.inl ⟨w0, hrec, hw.symm, ?_, ?_⟩⟩
                  · rw [← hgt, if_pos hcond.1]
                  · rw [← hg, if_pos hcond.1]
                next dx' dy' v' gt' g' w0 hrec =>
                  rw [try_parse_symbol_fuel_zero] at hrec
                  simp only [Except.ok.injEq, Prod.mk.injEq,
                    ParseResult.genericGlyph.injEq] at h
                  obtain ⟨⟨hdx, hdy, hv, hgt, hg⟩, hw⟩ := h
                  subst hv
                  exact ⟨hdx.symm, c0, m, s, hc0, hm, hs, hdy.symm, hneg, ff, hff,
                    fun hn => absurd hcond hn,
                    fun _ => Or.inr ⟨dx', dy', v', gt', g', w0, hrec, hw.symm,
                      hgt.symm, hg.symm⟩⟩
              next hcond =>
                simp only [Except.ok.injEq, Prod.mk.injEq,
                  ParseResult.genericGlyph.injEq] at h
                obtain ⟨⟨hdx, hdy, hv, hgt, hg⟩, hw⟩ := h
                subst hv
                exact ⟨hdx.symm, c0, m, s, hc0, hm, hs, hdy.symm, hneg, ff, hff,
                  fun _ => ⟨hw.symm, hgt.symm, hg.symm⟩,
                  fun hc => absurd hc hcond⟩

/-- The cell a successful `Image.get` returns is the underlying data. -/
theorem get_ok_data (iw : Image) (x y c : Nat) (h : iw.get x y = .ok c) :
    iw.data x y = c := by
  unfold Image.get at h
  split at h
  · exact (Except.ok.injEq _ _).mp h
  · simp at h

/-! ## Claim C2 -/

/-- C2: for a glyph decoded at the top level (polarity 1): an anchor cell
that is not the polarity color gives kind Integer; a polarity-colored
anchor whose border is not a full frame gives Command with the outer value;
a polarity-colored anchor with a full frame whose interior parses at
`(x+1, y+1)` under polarity 0 gives Variable carrying the interior's
decoded value.  At any polarity other than 1 the kind is never Variable and
no warning is raised (embedded resolution happens only at the polarity-1
scan). -/
theorem C2_classification :
    ∀ (iw : Image) (x y : Nat),
      (∀ dx dy v gt g w,
        try_parse_symbol iw x y 1 = .ok (.genericGlyph dx dy v gt g, w) →
        (iw.data x y ≠ 1 → gt = GlyphType.Ineteger ∧ g = Glyph.Integer v) ∧
        (iw.data x y = 1 → is_full_frame iw x y (find_delta iw x y 1) = .ok false →
          gt = GlyphType.Command ∧ g = Glyph.Command v) ∧
        (iw.data x y = 1 → is_full_frame iw x y (find_delta iw x y 1) = .ok true →
          ∀ dx' dy' v' gt' g' w',
            try_parse_symbol iw (x + 1) (y + 1) 0 = .ok (.genericGlyph dx' dy' v' gt' g', w') →
            gt = GlyphType.Variable ∧ g = Glyph.Variable v')) ∧
      (∀ set dx dy v gt g w, set ≠ 1 →
        try_parse_symbol iw x y set = .ok (.genericGlyph dx dy v gt g, w) →
        gt ≠ GlyphType.Variable ∧ w = 0) := by
  intro iw x y
  constructor
  · intro dx dy v gt g w h
    obtain ⟨-, -, c0, m, s, hc0, -, -, -, -, ff, hff, hnotvar, hvar⟩ := tps_ok_glyph _ _ _ _ _ _ _ _ _ _ h
    have hc0d : iw.data x y = c0 := get_ok_data _ _ _ _ hc0
    refine ⟨?_, ?_, ?_⟩
    · intro hne
      have hc0ne : ¬ c0 = 1 := fun hc => hne (hc0d.trans hc)
      have := hnotvar (fun hc => hc0ne hc.1)
      simp only [if_neg hc0ne] at this
      exact ⟨this.2.1, this.2.2⟩
    · intro heq hframe
      have hc0e : c0 = 1 := hc0d.symm.trans heq
      rw [if_pos hc0e, hframe] at hff
      injection hff with hffv
      have hfffalse : ff = false := hffv.symm
      have := hnotvar (fun hc => by rw [hfffalse] at hc; exact absurd hc.2.1 (by simp))
      simp only [if_pos hc0e] at this
      exact ⟨this.2.1, this.2.2⟩
    · intro heq hframe dx' dy' v' gt' g' w' hinner
      have hc0e : c0 = 1 := hc0d.symm.trans heq
      rw [if_pos hc0e] at hff
      rw [hframe] at hff
      injection hff with hffv
      have := hvar ⟨hc0e, hffv.symm, rfl⟩
      rcases this with ⟨w0, hrec, -, -, -⟩ | ⟨dx'', dy'', v'', gt'', g'', w0, hrec, -, hgt, hg⟩
      · rw [hinner] at hrec
        simp at hrec
      · rw [hinner] at hrec
        simp only [Except.ok.injEq, Prod.mk.injEq, ParseResult.genericGlyph.injEq] at hrec
        obtain ⟨⟨-, -, hv'', -, -⟩, -⟩ := hrec
        exact ⟨hgt, by rw [hg, hv'']⟩
  · intro set dx dy v gt g w hset h
    obtain ⟨-, -, c0, m, s, -, -, -, -, -, ff, -, hnotvar, -⟩ := tps_ok_glyph _ _ _ _ _ _ _ _ _ _ h
    have := hnotvar (fun hc => hset hc.2.2)
    refine ⟨?_, this.1⟩
    rw [this.2.1]
    split <;> simp

/-- C2, witness: the solid-block grid has a Command at (1,1) whose interior
fails to parse, and `gTwo` has an Integer at (5,1) and a non-frame Command
at (1,1); the classification theorem instantiated there. -/
theorem C2_classification_witness :
    (GlyphType.Ineteger = GlyphType.Ineteger ∧ Glyph.Integer (0 : Int) = Glyph.Integer 0) ∧
    (GlyphType.Command = GlyphType.Command ∧ Glyph.Command (0 : Int) = Glyph.Command 0) := by
  constructor
  · exact ((C2_classification gTwo 5 1).1 2 2 0 GlyphType.Ineteger (Glyph.Integer 0) 0
      (by rfl)).1 (by decide)
  · exact ((C2_classification gTwo 1 1).1 2 2 0 GlyphType.Command (Glyph.Command 0) 0
      (by rfl)).2.1 (by decide) (by rfl)

/-! ## Claim C4 -/

/-- A polarity-1 glyph with its sign cell set: value −1, extents (2, 3). -/
def gSignP1 : Image := gridOfList 6 6 [(2,1),(1,2),(2,2),(1,3)]

/-- C4, counterexample.  Under polarity 0 the glyph of `gSignP0` has its
sign cell equal to the polarity (the cell is black, value 0): the value is
negated as claimed, but the returned vertical extent is `dy = 2 = delta`,
not `delta + 1` — the code computes `dy = delta + extra_bit` from the
sign cell's numeric value, not from the sign flag. -/
theorem C4_counterexample :
    try_parse_symbol gSignP0 1 1 0 =
      .ok (.genericGlyph 2 2 (-1) .Ineteger (.Integer (-1)), 0) ∧
    find_delta gSignP0 1 1 0 = 2 ∧
    gSignP0.data 1 (1 + 2) = 0 ∧
    calc_value gSignP0 1 1 0 2 = .ok 1 := by
  exact ⟨by rfl, by rfl, by decide, by rfl⟩

/-- C4, amended: for every decoded glyph, under either polarity, the
returned value is the negation of the accumulated magnitude exactly when
the sign cell at `(x, y+delta)` equals the polarity; the vertical extent is
`dy = delta + b` where `b` is the numeric value of the sign cell — under
polarity 1 that is `delta` when the flag is clear and `delta + 1` when set,
but under polarity 0 it is the reverse (`delta` for a set flag, whose cell
value is 0). -/
theorem C4_sign_and_extent :
    ∀ (iw : Image) (x y set dx dy : Nat) (v m : Int) (gt : GlyphType) (g : Glyph) (w s : Nat),
      try_parse_symbol iw x y set = .ok (.genericGlyph dx dy v gt g, w) →
      calc_value iw x y set (find_delta iw x y set) = .ok m →
      iw.get x (y + find_delta iw x y set) = .ok s →
      dx = find_delta iw x y set ∧
      dy = find_delta iw x y set + s ∧
      v = (if s = set then -m else m) := by
  intro iw x y set dx dy v m gt g w s h hm hs
  obtain ⟨-, hdx, c0, m', s', -, hm', hs', hdy, hneg, -⟩ := tps_ok_glyph _ _ _ _ _ _ _ _ _ _ h
  rw [hm] at hm'
  injection hm' with hmm
  rw [hs] at hs'
  injection hs' with hss
  subst hmm
  subst hss
  refine ⟨hdx, hdy, ?_⟩
  by_cases hsgn : s = set
  · rw [if_pos hsgn] at hneg
    rw [if_pos hsgn]
    unfold negI32 at hneg
    split at hneg
    · simp at hneg
    · injection hneg with hv; exact hv.symm
  · rw [if_neg hsgn] at hneg
    rw [if_neg hsgn]
    injection hneg with hv
    exact hv.symm

/-- C4, witness: the amended claim on a polarity-1 glyph with the sign cell
set: extent `(2, 3)` (the sign row is consumed) and value −1. -/
theorem C4_sign_and_extent_witness :
    (2 = find_delta gSignP1 1 1 1 ∧ 3 = find_delta gSignP1 1 1 1 + 1 ∧
      (-1 : Int) = (if 1 = 1 then -(1 : Int) else 1)) ∧
    try_parse_symbol gSignP1 1 1 1 =
      .ok (.genericGlyph 2 3 (-1) .Ineteger (.Integer (-1)), 0) :=
  ⟨C4_sign_and_extent gSignP1 1 1 1 2 3 (-1) 1 .Ineteger (.Integer (-1)) 0 1
    (by rfl) (by rfl) (by rfl), by rfl⟩

/-! ## Claim C5 -/

/-- C5: `try_parse_symbol` answers "no glyph" exactly when the four-cell
anchor test fails (and then carries no warning); a successful glyph implies
the anchor test passed; on interior cells the anchor test is precisely
`cell(x+1,y) = p ∧ cell(x,y+1) = p ∧ cell(x-1,y) ≠ p ∧ cell(x,y-1) ≠ p`;
and on a "no glyph" answer the scanner's step leaves its state unchanged. -/
theorem C5_anchor_decides :
    ∀ (iw : Image) (x y set : Nat),
      (∀ w, try_parse_symbol iw x y set = .ok (.none, w) →
        anchor_test iw x y set = .ok false ∧ w = 0) ∧
      (anchor_test iw x y set = .ok false →
        try_parse_symbol iw x y set = .ok (.none, 0)) ∧
      (∀ dx dy v gt g w,
        try_parse_symbol iw x y set = .ok (.genericGlyph dx dy v gt g, w) →
        anchor_test iw x y set = .ok true) ∧
      (1 ≤ x → 1 ≤ y → x + 1 < iw.width → y + 1 < iw.height →
        (anchor_test iw x y set = .ok true ↔
          (iw.data (x + 1) y = set ∧ iw.data x (y + 1) = set ∧
           iw.data (x - 1) y ≠ set ∧ iw.data x (y - 1) ≠ set))) ∧
      (∀ (st : ScanState) (w : Nat), try_parse_symbol iw x y 1 = .ok (.none, w) →
        scan_step iw st (x, y) = .ok st) := by
  intro iw x y set
  refine ⟨fun w h => tps_ok_none iw x y set w h,
          fun h => tps_of_anchor_false iw x y set h,
          fun dx dy v gt g w h => (tps_ok_glyph _ _ _ _ _ _ _ _ _ _ h).1,
          ?_, ?_⟩
  · intro hx hy hw hh
    rw [anchor_test_char iw x y set hx hy hw hh]
    constructor
    · intro h
      injection h with h'
      exact of_decide_eq_true h'
    · intro h
      rw [decide_eq_true h]
  · intro st w h
    have hw0 : w = 0 := (tps_ok_none iw x y 1 w h).2
    subst hw0
    unfold scan_step
    simp only []
    by_cases hp : st.parsed x y = true
    · rw [if_pos hp]
    · rw [if_neg hp, h]
      simp

/-- C5, witness: at position (2,2) of `gTwo` the anchor test fails, the
codec answers "no glyph" with no warning, and the scanner's step is the
identity on its state. -/
theorem C5_anchor_decides_witness :
    try_parse_symbol gTwo 2 2 1 = .ok (.none, 0) ∧
    scan_step gTwo ⟨emptyMask, [], [], 0⟩ (2, 2) = .ok ⟨emptyMask, [], [], 0⟩ ∧
    (anchor_test gTwo 2 2 1 = .ok true ↔
      (gTwo.data (2 + 1) 2 = 1 ∧ gTwo.data 2 (2 + 1) = 1 ∧
       gTwo.data (2 - 1) 2 ≠ 1 ∧ gTwo.data 2 (2 - 1) ≠ 1)) := by
  have h := (C5_anchor_decides gTwo 2 2 1).2.1 (by rfl)
  exact ⟨h, (C5_anchor_decides gTwo 2 2 1).2.2.2.2 ⟨emptyMask, [], [], 0⟩ 0 h,
    (C5_anchor_decides gTwo 2 2 1).2.2.2.1 (by omega) (by omega) (by decide) (by decide)⟩

/-! ## Claim C6 -/

/-- C6: a full-frame command glyph (polarity 1) whose interior fails the
polarity-0 parse is still emitted — as a Command carrying the outer value —
with exactly one warning, and the run does not abort. -/
theorem C6_anomaly_tolerance :
    ∀ (iw : Image) (x y : Nat) (m fv : Int) (s w0 : Nat),
      anchor_test iw x y 1 = .ok true →
      iw.get x y = .ok 1 →
      calc_value iw x y 1 (find_delta iw x y 1) = .ok m →
      iw.get x (y + find_delta iw x y 1) = .ok s →
      (if s = 1 then negI32 m else .ok m) = .ok fv →
      is_full_frame iw x y (find_delta iw x y 1) = .ok true →
      try_parse_symbol iw (x + 1) (y + 1) 0 = .ok (.none, w0) →
      w0 = 0 ∧
      try_parse_symbol iw x y 1 =
        .ok (.genericGlyph (find_delta iw x y 1) (find_delta iw x y 1 + s) fv
               GlyphType.Command (Glyph.Command fv), w0 + 1) := by
  intro iw x y m fv s w0 hanch hc0 hm hs hneg hff hinner
  refine ⟨(tps_ok_none _ _ _ _ _ hinner).2, ?_⟩
  rw [try_parse_symbol_eq]
  unfold tps_body
  simp only [hanch, hc0, hm, hs]
  simp only [hneg]
  simp [hff, try_parse_symbol_fuel_zero, hinner]

/-- C6, witness: the solid 4×4 block `gAnomaly`: full frame, interior
anchor fails, and the glyph is emitted as `Command 511` with one warning. -/
theorem C6_anomaly_tolerance_witness :
    try_parse_symbol gAnomaly 1 1 1 =
      .ok (.genericGlyph 4 4 511 GlyphType.Command (Glyph.Command 511), 0 + 1) ∧
    try_parse_symbol gAnomaly 2 2 0 = .ok (.none, 0) :=
  ⟨(C6_anomaly_tolerance gAnomaly 1 1 511 511 0 0
      (by rfl) (by rfl) (by rfl) (by rfl) (by rfl) (by rfl) (by rfl)).2,
   by rfl⟩

/-! ## The scanner: order, tokens and mask -/

/-- Raster order on positions: ascending `y`, then ascending `x`. -/
def lexLt (p q : Nat × Nat) : Prop :=
  p.2 < q.2 ∨ (p.2 = q.2 ∧ p.1 < q.1)

/-- The anchor of an emitted glyph. -/
def anchorOf (g : GlyphRec) : Nat × Nat := (g.x, g.y)

/-- Membership of a cell in a glyph's consumed bounding box. -/
def inBox (g : GlyphRec) (a b : Nat) : Prop :=
  g.x ≤ a ∧ a < g.x + g.dx ∧ g.y ≤ b ∧ b < g.y + g.dy

instance (p q : Nat × Nat) : Decidable (lexLt p q) := by
  unfold lexLt; infer_instance

instance (g : GlyphRec) (a b : Nat) : Decidable (inBox g a b) := by
  unfold inBox; infer_instance

/-- The token stream `parse_image` retains from a glyph list: only Command
and Variable glyphs, as `(value, glyph)` pairs, in list order. -/
def tokensOf (l : List GlyphRec) : List Token :=
  l.filterMap (fun g =>
    if g.glyph_type = GlyphType.Command ∨ g.glyph_type = GlyphType.Variable
    then some (g.value, g.glyph) else none)

theorem tokensOf_append (l1 l2 : List GlyphRec) :
    tokensOf (l1 ++ l2) = tokensOf l1 ++ tokensOf l2 :=
  List.filterMap_append l1 l2 _

theorem scan_positions_mem (iw : Image) (p : Nat × Nat) (h : p ∈ scan_positions iw) :
    1 ≤ p.1 ∧ p.1 + 3 ≤ iw.width ∧ 1 ≤ p.2 ∧ p.2 + 3 ≤ iw.height := by
  unfold scan_positions at h
  rw [List.mem_flatMap] at h
  obtain ⟨y, hy, hp⟩ := h
  rw [List.mem_map] at hp
  obtain ⟨x, hx, rfl⟩ := hp
  rw [List.mem_range'] at hy hx
  obtain ⟨i, hi, rfl⟩ := hy
  obtain ⟨j, hj, rfl⟩ := hx
  simp only []
  omega

theorem pairwise_lex_flat (w : Nat) :
    ∀ ys : List Nat, ys.Pairwise (· < ·) →
      List.Pairwise lexLt (ys.flatMap (fun y => (List.range' 1 w).map (fun x => (x, y))))
  | [], _ => by simp
  | y :: ys, h => by
    rw [List.flatMap_cons, List.pairwise_append]
    obtain ⟨hy, hys⟩ := List.pairwise_cons.mp h
    refine ⟨?_, pairwise_lex_flat w ys hys, ?_⟩
    · rw [List.pairwise_map]
      exact (List.pairwise_lt_range' 1 w).imp (fun hab => Or.inr ⟨rfl, hab⟩)
    · intro p hp q hq
      rw [List.mem_map] at hp
      obtain ⟨x, -, rfl⟩ := hp
      rw [List.mem_flatMap] at hq
      obtain ⟨y', hy', hq⟩ := hq
      rw [List.mem_map] at hq
      obtain ⟨x', -, rfl⟩ := hq
      exact Or.inl (hy y' hy')

theorem scan_positions_pairwise (iw : Image) :
    List.Pairwise lexLt (scan_positions iw) :=
  pairwise_lex_flat (iw.width - 2 - 1) (List.range' 1 (iw.height - 2 - 1))
    (List.pairwise_lt_range' 1 (iw.height - 2 - 1))

/-- The three possible outcomes of one scanner step: skip a masked cell,
record warnings on "no glyph", or consume a glyph's box and emit it. -/
theorem scan_step_cases (iw : Image) (st st' : ScanState) (x y : Nat)
    (h : scan_step iw st (x, y) = .ok st') :
    (st.parsed x y = true ∧ st' = st) ∨
    (st.parsed x y = false ∧ ∃ w, try_parse_symbol iw x y 1 = .ok (.none, w) ∧
      st' = { st with warnings := st.warnings + w }) ∨
    (st.parsed x y = false ∧ ∃ dx dy v gt g w,
      try_parse_symbol iw x y 1 = .ok (.genericGlyph dx dy v gt g, w) ∧
      st' = { parsed := mark_parsed st.parsed x y dx dy,
              log := st.log ++ [⟨x, y, dx, dy, v, gt, g⟩],
              codes := st.codes ++
                (if gt = GlyphType.Command ∨ gt = GlyphType.Variable then [(v, g)] else []),
              warnings := st.warnings + w }) := by
  unfold scan_step at h
  simp only [] at h
  split at h
  next hp =>
    exact Or.inl ⟨hp, ((Except.ok.injEq _ _).mp h).symm⟩
  next hp =>
    split at h
    · simp at h
    next w heq =>
      exact Or.inr (Or.inl ⟨by simpa using hp, w, heq, ((Except.ok.injEq _ _).mp h).symm⟩)
    next dx dy v gt g w heq =>
      exact Or.inr (Or.inr ⟨by simpa using hp, dx, dy, v, gt, g, w, heq,
        ((Except.ok.injEq _ _).mp h).symm⟩)

theorem tokensOf_single (x y dx dy : Nat) (v : Int) (gt : GlyphType) (g : Glyph) :
    tokensOf [⟨x, y, dx, dy, v, gt, g⟩] =
      (if gt = GlyphType.Command ∨ gt = GlyphType.Variable then [(v, g)] else []) := by
  unfold tokensOf
  split <;> simp_all [List.filterMap]

theorem scan_fold_inv (iw : Image) :
    ∀ (l : List (Nat × Nat)) (st st' : ScanState),
      exceptFold (scan_step iw) st l = .ok st' →
      List.Pairwise lexLt l →
      (∀ p ∈ l, 1 ≤ p.1 ∧ p.1 + 3 ≤ iw.width ∧ 1 ≤ p.2 ∧ p.2 + 3 ≤ iw.height) →
      st.codes = tokensOf st.log →
      List.Pairwise (fun g1 g2 => lexLt (anchorOf g1) (anchorOf g2)) st.log →
      (∀ g ∈ st.log, ∀ p ∈ l, lexLt (anchorOf g) p) →
      (∀ g ∈ st.log, 1 ≤ g.x ∧ g.x + 3 ≤ iw.width ∧ 1 ≤ g.y ∧ g.y + 3 ≤ iw.height) →
      st'.codes = tokensOf st'.log ∧
      List.Pairwise (fun g1 g2 => lexLt (anchorOf g1) (anchorOf g2)) st'.log ∧
      (∀ g ∈ st'.log, 1 ≤ g.x ∧ g.x + 3 ≤ iw.width ∧ 1 ≤ g.y ∧ g.y + 3 ≤ iw.height)
  | [], st, st', h, _, _, hcodes, hpw, _, hbounds => by
    unfold exceptFold at h
    injection h with h'
    subst h'
    exact ⟨hcodes, hpw, hbounds⟩
  | (x, y) :: l, st, st', h, hplw, hpb, hcodes, hpw, hord, hbounds => by
    unfold exceptFold at h
    split at h
    · exact absurd h (by simp)
    next stm heq =>
      obtain ⟨hheadlt, hptail⟩ := List.pairwise_cons.mp hplw
      rcases scan_step_cases iw st stm x y heq with
        ⟨hp, rfl⟩ | ⟨hp, w, htps, rfl⟩ | ⟨hp, dx, dy, v, gt, g, w, htps, rfl⟩
      · exact scan_fold_inv iw l _ st' h hptail
          (fun p hp' => hpb p (List.mem_cons_of_mem _ hp')) hcodes hpw
          (fun g hg p hp' => hord g hg p (List.mem_cons_of_mem _ hp')) hbounds
      · exact scan_fold_inv iw l _ st' h hptail
          (fun p hp' => hpb p (List.mem_cons_of_mem _ hp')) hcodes hpw
          (fun g hg p hp' => hord g hg p (List.mem_cons_of_mem _ hp')) hbounds
      · apply scan_fold_inv iw l _ st' h hptail
          (fun p hp' => hpb p (List.mem_cons_of_mem _ hp'))
        · show st.codes ++ _ = tokensOf (st.log ++ [⟨x, y, dx, dy, v, gt, g⟩])
          rw [tokensOf_append, tokensOf_single, hcodes]
        · show List.Pairwise _ (st.log ++ [⟨x, y, dx, dy, v, gt, g⟩])
          rw [List.pairwise_append]
          refine ⟨hpw, List.pairwise_singleton _ _, ?_⟩
          intro g1 hg1 g2 hg2
          rw [List.mem_singleton] at hg2
          subst hg2
          exact hord g1 hg1 (x, y) (List.mem_cons_self _ _)
        · show ∀ g' ∈ st.log ++ [⟨x, y, dx, dy, v, gt, g⟩], ∀ p ∈ l, lexLt (anchorOf g') p
          intro g' hg' p hp'
          rw [List.mem_append, List.mem_singleton] at hg'
          rcases hg' with hg' | rfl
          · exact hord g' hg' p (List.mem_cons_of_mem _ hp')
          · exact hheadlt p hp'
        · show ∀ g' ∈ st.log ++ [⟨x, y, dx, dy, v, gt, g⟩], _
          intro g' hg'
          rw [List.mem_append, List.mem_singleton] at hg'
          rcases hg' with hg' | rfl
          · exact hbounds g' hg'
          · exact hpb (x, y) (List.mem_cons_self _ _)

/-! ## Claim C7 -/

/-- C7: after a full scan (from the all-false mask), the token stream is
exactly the Command and Variable glyphs of the emission log — top-level
Integers are discarded — in the log's order; the log is strictly ordered by
ascending anchor `y` then ascending anchor `x` (never sorted by value), and
every anchor lies in the interior (the boundary rows and columns, of width
at least 2 on the right and bottom, are never anchors). -/
theorem C7_scan_order :
    ∀ (iw : Image) (st : ScanState),
      parse_image iw emptyMask = .ok st →
      st.codes = tokensOf st.log ∧
      List.Pairwise (fun g1 g2 => lexLt (anchorOf g1) (anchorOf g2)) st.log ∧
      ∀ g ∈ st.log, 1 ≤ g.x ∧ g.x + 3 ≤ iw.width ∧ 1 ≤ g.y ∧ g.y + 3 ≤ iw.height := by
  intro iw st h
  unfold parse_image at h
  split at h
  · simp at h
  · exact scan_fold_inv iw (scan_positions iw) ⟨emptyMask, [], [], 0⟩ st h
      (scan_positions_pairwise iw) (fun p hp => scan_positions_mem iw p hp)
      rfl (by simp) (by simp) (by simp)

/-- C7, witness: the scan of `gTwo` emits a Command glyph at (1,1) and an
Integer glyph at (5,1); the token stream keeps exactly the Command, and the
log is in raster anchor order. -/
theorem C7_scan_order_witness :
    ([((0 : Int), Glyph.Command 0)] : List Token) =
      tokensOf [⟨1, 1, 2, 2, 0, .Command, .Command 0⟩, ⟨5, 1, 2, 2, 0, .Ineteger, .Integer 0⟩] ∧
    List.Pairwise (fun g1 g2 => lexLt (anchorOf g1) (anchorOf g2))
      [⟨1, 1, 2, 2, 0, .Command, .Command 0⟩, ⟨5, 1, 2, 2, 0, .Ineteger, .Integer 0⟩] := by
  have h := C7_scan_order gTwo
    ⟨mark_parsed (mark_parsed emptyMask 1 1 2 2) 5 1 2 2,
     [⟨1, 1, 2, 2, 0, .Command, .Command 0⟩, ⟨5, 1, 2, 2, 0, .Ineteger, .Integer 0⟩],
     [((0 : Int), Glyph.Command 0)], 0⟩ (by rfl)
  exact ⟨h.1, h.2.1⟩

/-! ## Claim C8 -/

theorem scan_fold_mask (iw : Image) :
    ∀ (l : List (Nat × Nat)) (st st' : ScanState),
      exceptFold (scan_step iw) st l = .ok st' →
      (∀ a b, st.parsed a b = true ↔ ∃ g ∈ st.log, inBox g a b) →
      List.Pairwise (fun g1 g2 => ¬ inBox g1 g2.x g2.y) st.log →
      (∀ a b, st'.parsed a b = true ↔ ∃ g ∈ st'.log, inBox g a b) ∧
      List.Pairwise (fun g1 g2 => ¬ inBox g1 g2.x g2.y) st'.log
  | [], st, st', h, hmask, hpw => by
    unfold exceptFold at h
    injection h with h'
    subst h'
    exact ⟨hmask, hpw⟩
  | (x, y) :: l, st, st', h, hmask, hpw => by
    unfold exceptFold at h
    split at h
    · exact absurd h (by simp)
    next stm heq =>
      rcases scan_step_cases iw st stm x y heq with
        ⟨hp, rfl⟩ | ⟨hp, w, htps, rfl⟩ | ⟨hp, dx, dy, v, gt, g, w, htps, rfl⟩
      · exact scan_fold_mask iw l _ st' h hmask hpw
      · exact scan_fold_mask iw l _ st' h hmask hpw
      · have hfree : ¬ ∃ g' ∈ st.log, inBox g' x y := by
          intro hc
          have := (hmask x y).mpr hc
          rw [hp] at this
          exact absurd this (by simp)
        apply scan_fold_mask iw l _ st' h
        · show ∀ a b, mark_parsed st.parsed x y dx dy a b = true ↔
            ∃ g' ∈ st.log ++ [⟨x, y, dx, dy, v, gt, g⟩], inBox g' a b
          intro a b
          unfold mark_parsed
          by_cases hrect : x ≤ a ∧ a < x + dx ∧ y ≤ b ∧ b < y + dy
          · rw [if_pos hrect]
            simp only [true_iff]
            exact ⟨⟨x, y, dx, dy, v, gt, g⟩,
              List.mem_append_right _ (List.mem_singleton_self _), hrect⟩
          · rw [if_neg hrect, hmask a b]
            constructor
            · rintro ⟨g', hg', hbox⟩
              exact ⟨g', List.mem_append_left _ hg', hbox⟩
            · rintro ⟨g', hg', hbox⟩
              rw [List.mem_append, List.mem_singleton] at hg'
              rcases hg' with hg' | rfl
              · exact ⟨g', hg', hbox⟩
              · exact absurd hbox hrect
        · show List.Pairwise _ (st.log ++ [⟨x, y, dx, dy, v, gt, g⟩])
          rw [List.pairwise_append]
          refine ⟨hpw, List.pairwise_singleton _ _, ?_⟩
          intro g1 hg1 g2 hg2
          rw [List.mem_singleton] at hg2
          subst hg2
          exact fun hbox => hfree ⟨g1, hg1, hbox⟩

/-- C8, counterexample: the scan of `gOverlap` emits a 2×2 glyph anchored
at (5,1) and then a 5×5 glyph anchored at (1,2) whose bounding boxes are
not disjoint: cell (5,2) lies in both, so it belongs to two glyphs. -/
theorem C8_counterexample :
    Except.map (fun st => st.log) (parse_image gOverlap emptyMask) =
      .ok [⟨5, 1, 2, 2, 0, .Ineteger, .Integer 0⟩, ⟨1, 2, 5, 5, 0, .Ineteger, .Integer 0⟩] ∧
    inBox ⟨5, 1, 2, 2, 0, .Ineteger, .Integer 0⟩ 5 2 ∧
    inBox ⟨1, 2, 5, 5, 0, .Ineteger, .Integer 0⟩ 5 2 := by
  exact ⟨by rfl, by decide, by decide⟩

/-- C8, amended: after a full scan (from the all-false mask), the masked
cells are exactly the cells of the emitted glyphs' bounding boxes (so every
masked cell belongs to at least one glyph), and the scanner never uses an
already-masked cell as a new glyph anchor: no glyph's anchor lies in an
earlier glyph's box.  (The original claim's pairwise disjointness of boxes,
and hence the "exactly one glyph" part, is false: boxes may overlap, only
anchors are checked against the mask.) -/
theorem C8_mask_boxes :
    ∀ (iw : Image) (st : ScanState),
      parse_image iw emptyMask = .ok st →
      (∀ a b, st.parsed a b = true ↔ ∃ g ∈ st.log, inBox g a b) ∧
      List.Pairwise (fun g1 g2 => ¬ inBox g1 g2.x g2.y) st.log := by
  intro iw st h
  unfold parse_image at h
  split at h
  · simp at h
  · exact scan_fold_mask iw (scan_positions iw) ⟨emptyMask, [], [], 0⟩ st h
      (by intro a b; simp [emptyMask]) (by simp)

/-- C8, witness: the amended claim instantiated on the overlap grid: cell
(5,2) is masked and covered, and neither glyph's anchor lies in the other's
box. -/
theorem C8_mask_boxes_witness :
    ((mark_parsed (mark_parsed emptyMask 5 1 2 2) 1 2 5 5) 5 2 = true ↔
      ∃ g ∈ [(⟨5, 1, 2, 2, 0, .Ineteger, .Integer 0⟩ : GlyphRec),
             ⟨1, 2, 5, 5, 0, .Ineteger, .Integer 0⟩], inBox g 5 2) ∧
    List.Pairwise (fun g1 g2 => ¬ inBox g1 g2.x g2.y)
      [(⟨5, 1, 2, 2, 0, .Ineteger, .Integer 0⟩ : GlyphRec),
       ⟨1, 2, 5, 5, 0, .Ineteger, .Integer 0⟩] := by
  have h := C8_mask_boxes gOverlap
    ⟨mark_parsed (mark_parsed emptyMask 5 1 2 2) 1 2 5 5,
     [⟨5, 1, 2, 2, 0, .Ineteger, .Integer 0⟩, ⟨1, 2, 5, 5, 0, .Ineteger, .Integer 0⟩],
     [], 0⟩ (by rfl)
  exact ⟨h.1 5 2, h.2⟩

/-! ## The encoder, characterized -/

theorem clog2_go_le (m : Nat) : ∀ (fuel k j : Nat), k ≤ j → m ≤ 2 ^ j →
    clog2_go m k fuel ≤ j
  | 0, k, j, hkj, _ => hkj
  | fuel + 1, k, j, hkj, hj => by
    unfold clog2_go
    split
    · exact hkj
    next hk =>
      have hkj' : k < j := by
        by_contra hc
        push_neg at hc
        exact hk (hj.trans (Nat.pow_le_pow_right (by omega) (by omega)))
      exact clog2_go_le m fuel (k + 1) j (by omega) hj

theorem clog2_go_ge (m : Nat) : ∀ (fuel k : Nat), m ≤ 2 ^ (k + fuel) →
    m ≤ 2 ^ clog2_go m k fuel
  | 0, k, h => h
  | fuel + 1, k, h => by
    unfold clog2_go
    split
    · assumption
    · exact clog2_go_ge m fuel (k + 1)
        (by rw [show k + 1 + fuel = k + (fuel + 1) by omega]; exact h)

theorem nat_clog2_le (m j : Nat) (h : m ≤ 2 ^ j) : nat_clog2 m ≤ j :=
  clog2_go_le m m 0 j (Nat.zero_le _) h

theorem nat_clog2_ge (m : Nat) : m ≤ 2 ^ nat_clog2 m :=
  clog2_go_ge m m 0 (by simpa using Nat.le_of_lt (Nat.lt_two_pow m))

theorem csqrt_go_le (n : Nat) : ∀ (fuel k j : Nat), k ≤ j → n ≤ j * j →
    csqrt_go n k fuel ≤ j
  | 0, k, j, hkj, _ => hkj
  | fuel + 1, k, j, hkj, hj => by
    unfold csqrt_go
    split
    · exact hkj
    next hk =>
      have hkj' : k < j := by
        by_contra hc
        push_neg at hc
        exact hk (hj.trans (Nat.mul_le_mul hc hc))
      exact csqrt_go_le n fuel (k + 1) j (by omega) hj

theorem csqrt_go_ge (n : Nat) : ∀ (fuel k : Nat), n ≤ (k + fuel) * (k + fuel) →
    n ≤ csqrt_go n k fuel * csqrt_go n k fuel
  | 0, k, h => h
  | fuel + 1, k, h => by
    unfold csqrt_go
    split
    · assumption
    · exact csqrt_go_ge n fuel (k + 1)
        (by rw [show k + 1 + fuel = k + (fuel + 1) by omega]; exact h)

theorem nat_sqrt_ceil_le (n j : Nat) (h : n ≤ j * j) : nat_sqrt_ceil n ≤ j :=
  csqrt_go_le n n 0 j (Nat.zero_le _) h

theorem nat_sqrt_ceil_ge (n : Nat) : n ≤ nat_sqrt_ceil n * nat_sqrt_ceil n := by
  apply csqrt_go_ge n n 0
  rcases Nat.eq_zero_or_pos n with rfl | h
  · simp
  · simpa using Nat.le_mul_of_pos_left n h

theorem encode_d_le_5 (v : Nat) (h : v < 2 ^ 25) : encode_d v ≤ 5 := by
  unfold encode_d
  apply nat_sqrt_ceil_le
  by_cases hv : v = 0
  · rw [if_pos hv]; omega
  · rw [if_neg hv]
    have := nat_clog2_le (v + 1) 25 (by omega)
    omega

theorem encode_d_pos (v : Nat) : 1 ≤ encode_d v := by
  unfold encode_d
  by_contra hc
  push_neg at hc
  have h0 : nat_sqrt_ceil (if v = 0 then 1 else nat_clog2 (v + 1)) = 0 := by omega
  have := nat_sqrt_ceil_ge (if v = 0 then 1 else nat_clog2 (v + 1))
  rw [h0] at this
  simp only [Nat.mul_zero, Nat.le_zero] at this
  by_cases hv : v = 0
  · rw [if_pos hv] at this; omega
  · rw [if_neg hv] at this
    have h1 := nat_clog2_ge (v + 1)
    rw [this] at h1
    simp at h1
    omega

theorem encode_v_lt (v : Nat) : v < 2 ^ (encode_d v * encode_d v) := by
  unfold encode_d
  by_cases hv : v = 0
  · subst hv; positivity
  · rw [if_neg hv]
    have h1 : v + 1 ≤ 2 ^ nat_clog2 (v + 1) := nat_clog2_ge (v + 1)
    have h2 : nat_clog2 (v + 1) ≤
        nat_sqrt_ceil (nat_clog2 (v + 1)) * nat_sqrt_ceil (nat_clog2 (v + 1)) :=
      nat_sqrt_ceil_ge _
    have h3 : (2 : Nat) ^ nat_clog2 (v + 1) ≤ 2 ^ (nat_sqrt_ceil (nat_clog2 (v + 1)) *
        nat_sqrt_ceil (nat_clog2 (v + 1))) := Nat.pow_le_pow_right (by omega) h2
    omega

/-- The cell pattern of the encoded glyph: the body bit at `(a, b)` with
`1 ≤ a, b ≤ d` is the bit `(a-1) + (b-1)·d` of the value; row 0 and column
0 up to `d` are set; everything else is clear. -/
def encImageFun (v d : Nat) : Nat → Nat → Nat := fun a b =>
  if 1 ≤ a ∧ a ≤ d ∧ 1 ≤ b ∧ b ≤ d ∧ Nat.testBit v ((a - 1) + (b - 1) * d) then 1
  else if (b = 0 ∧ a ≤ d) ∨ (a = 0 ∧ b ≤ d) then 1 else 0

/-- The image `encode_symbol` produces, in closed form. -/
def encImage (v : Nat) : Image :=
  ⟨encode_d v + 1, encode_d v + 1, encImageFun v (encode_d v)⟩

theorem upd2_apply (g : Nat → Nat → Nat) (A B v x y : Nat) :
    upd2 g A B v x y = if x = A ∧ y = B then v else g x y := rfl

theorem encode_border_go : ∀ (n : Nat) (g : Nat → Nat → Nat) (a b : Nat),
    ((List.range n).foldl (fun g i => upd2 (upd2 g i 0 1) 0 i 1) g) a b =
      if (b = 0 ∧ a < n) ∨ (a = 0 ∧ b < n) then 1 else g a b
  | 0, g, a, b => by simp
  | n + 1, g, a, b => by
    rw [List.range_succ, List.foldl_append]
    simp only [List.foldl_cons, List.foldl_nil]
    rw [upd2_apply, upd2_apply, encode_border_go n g a b]
    split_ifs <;> first | rfl | omega

theorem encode_border_apply (g : Nat → Nat → Nat) (d a b : Nat) :
    encode_border g d a b = if (b = 0 ∧ a ≤ d) ∨ (a = 0 ∧ b ≤ d) then 1 else g a b := by
  unfold encode_border
  rw [encode_border_go (d + 1) g a b]
  split_ifs <;> first | rfl | omega

theorem encode_pairs_mem (d : Nat) (p : Nat × Nat) :
    p ∈ encode_pairs d ↔ p.1 < d ∧ p.2 < d := by
  unfold encode_pairs
  simp only [List.mem_flatMap, List.mem_map, List.mem_range]
  constructor
  · rintro ⟨cy, hcy, cx, hcx, rfl⟩
    exact ⟨hcy, hcx⟩
  · rintro ⟨h1, h2⟩
    exact ⟨p.1, h1, p.2, h2, rfl⟩

theorem encode_bits_go (v d : Nat) : ∀ (l : List (Nat × Nat)) (g : Nat → Nat → Nat),
    (∀ p ∈ l, p.2 + p.1 * d < 32) →
    ∃ g', exceptFold (encode_bit_step v d) g l = .ok g' ∧
      ∀ a b, g' a b =
        if ∃ p ∈ l, a = 1 + p.2 ∧ b = 1 + p.1 ∧ Nat.testBit v (p.2 + p.1 * d)
        then 1 else g a b
  | [], g, _ => ⟨g, rfl, by simp⟩
  | p :: l, g, h => by
    have hp := h p (List.mem_cons_self _ _)
    obtain ⟨z, hz⟩ : ∃ z, shlOne (p.2 + p.1 * d) = .ok z := by
      unfold shlOne
      rw [if_neg (by omega)]
      split <;> exact ⟨_, rfl⟩
    have hstep : encode_bit_step v d g p =
        .ok (if Nat.testBit v (p.2 + p.1 * d) then upd2 g (1 + p.2) (1 + p.1) 1 else g) := by
      unfold encode_bit_step
      rw [hz]
      simp only []
      split <;> rfl
    by_cases ht : Nat.testBit v (p.2 + p.1 * d)
    · rw [if_pos ht] at hstep
      obtain ⟨g', hfold, hg'⟩ := encode_bits_go v d l (upd2 g (1 + p.2) (1 + p.1) 1)
        (fun q hq => h q (List.mem_cons_of_mem _ hq))
      refine ⟨g', by unfold exceptFold; rw [hstep]; exact hfold, ?_⟩
      intro a b
      rw [hg' a b]
      by_cases htail : ∃ q ∈ l, a = 1 + q.2 ∧ b = 1 + q.1 ∧ Nat.testBit v (q.2 + q.1 * d)
      · rw [if_pos htail, if_pos]
        obtain ⟨q, hq, hcond⟩ := htail
        exact ⟨q, List.mem_cons_of_mem _ hq, hcond⟩
      · rw [if_neg htail]
        unfold upd2
        by_cases hhead : a = 1 + p.2 ∧ b = 1 + p.1
        · rw [if_pos hhead, if_pos ⟨p, List.mem_cons_self _ _, hhead.1, hhead.2, ht⟩]
        · rw [if_neg hhead, if_neg]
          rintro ⟨q, hq, hc1, hc2, hc3⟩
          rw [List.mem_cons] at hq
          rcases hq with rfl | hq
          · exact hhead ⟨hc1, hc2⟩
          · exact htail ⟨q, hq, hc1, hc2, hc3⟩
    · rw [if_neg ht] at hstep
      obtain ⟨g', hfold, hg'⟩ := encode_bits_go v d l g
        (fun q hq => h q (List.mem_cons_of_mem _ hq))
      refine ⟨g', by unfold exceptFold; rw [hstep]; exact hfold, ?_⟩
      intro a b
      rw [hg' a b]
      by_cases htail : ∃ q ∈ l, a = 1 + q.2 ∧ b = 1 + q.1 ∧ Nat.testBit v (q.2 + q.1 * d)
      · rw [if_pos htail, if_pos]
        obtain ⟨q, hq, hcond⟩ := htail
        exact ⟨q, List.mem_cons_of_mem _ hq, hcond⟩
      · rw [if_neg htail, if_neg]
        rintro ⟨q, hq, hc1, hc2, hc3⟩
        rw [List.mem_cons] at hq
        rcases hq with rfl | hq
        · exact ht hc3
        · exact htail ⟨q, hq, hc1, hc2, hc3⟩

theorem enc_pairs_cond_iff (v d a b : Nat) :
    (∃ p ∈ encode_pairs d, a = 1 + p.2 ∧ b = 1 + p.1 ∧ Nat.testBit v (p.2 + p.1 * d)) ↔
    (1 ≤ a ∧ a ≤ d ∧ 1 ≤ b ∧ b ≤ d ∧ Nat.testBit v ((a - 1) + (b - 1) * d)) := by
  constructor
  · rintro ⟨⟨cy, cx⟩, hmem, rfl, rfl, ht⟩
    obtain ⟨hcy, hcx⟩ := (encode_pairs_mem d _).mp hmem
    simp only [] at hcy hcx ht
    refine ⟨by omega, by omega, by omega, by omega, ?_⟩
    simpa [Nat.add_sub_cancel_left] using ht
  · rintro ⟨h1, h2, h3, h4, ht⟩
    refine ⟨(b - 1, a - 1), (encode_pairs_mem d _).mpr ⟨by omega, by omega⟩,
      by simp only []; omega, by simp only []; omega, ?_⟩
    simpa using ht

/-- For every `v < 2^25`, `encode_symbol` succeeds and produces exactly the
closed-form image `encImage v`. -/
theorem encode_symbol_eq (v : Nat) (h : v < 2 ^ 25) :
    encode_symbol (v : Int) = .ok (encImage v) := by
  have hd5 : encode_d v ≤ 5 := encode_d_le_5 v h
  unfold encode_symbol
  rw [if_neg (not_lt.mpr (Int.natCast_nonneg v))]
  simp only [Int.toNat_natCast]
  obtain ⟨g', hfold, hg'⟩ := encode_bits_go v (encode_d v) (encode_pairs (encode_d v))
    (encode_border (fun _ _ => 0) (encode_d v))
    (by intro p hp
        obtain ⟨h1, h2⟩ := (encode_pairs_mem _ p).mp hp
        have : p.1 * encode_d v ≤ 4 * 5 := Nat.mul_le_mul (by omega) (by omega)
        omega)
  rw [hfold]
  simp only [Except.ok.injEq]
  unfold encImage
  congr 1
  funext a b
  rw [hg' a b, encode_border_apply]
  unfold encImageFun
  by_cases hbody : 1 ≤ a ∧ a ≤ encode_d v ∧ 1 ≤ b ∧ b ≤ encode_d v ∧
      Nat.testBit v ((a - 1) + (b - 1) * encode_d v)
  · rw [if_pos ((enc_pairs_cond_iff v (encode_d v) a b).mpr hbody), if_pos hbody]
  · rw [if_neg (fun hc => hbody ((enc_pairs_cond_iff v (encode_d v) a b).mp hc)),
      if_neg hbody]

/-! ## Bit sums -/

theorem sum_testBit_range (v : Nat) : ∀ n : Nat,
    ((List.range n).map (fun e => if v.testBit e then 2 ^ e else 0)).sum = v % 2 ^ n
  | 0 => by simp [Nat.mod_one]
  | n + 1 => by
    rw [List.range_succ, List.map_append, List.sum_append, sum_testBit_range v n]
    simp only [List.map_cons, List.map_nil, List.sum_cons, List.sum_nil, add_zero]
    have key : v % 2 ^ (n + 1) = v % 2 ^ n + 2 ^ n * (v / 2 ^ n % 2) := by
      rw [pow_succ]
      exact Nat.mod_mul
    rw [key, Nat.testBit_to_div_mod]
    rcases Nat.mod_two_eq_zero_or_one (v / 2 ^ n) with h2 | h2 <;> simp [h2]

theorem rows_concat (f : Nat → Nat) (d : Nat) : ∀ k : Nat,
    ((List.range k).map (fun cy => ((List.range' (cy * d) d).map f).sum)).sum =
      ((List.range' 0 (k * d)).map f).sum
  | 0 => by simp
  | k + 1 => by
    rw [List.range_succ, List.map_append, List.sum_append, rows_concat f d k]
    simp only [List.map_cons, List.map_nil, List.sum_cons, List.sum_nil, add_zero]
    have happ : List.range' 0 (k * d) ++ List.range' (k * d) d = List.range' 0 (d + k * d) := by
      have := List.range'_append 0 (k * d) d 1
      simpa using this
    rw [show (k + 1) * d = d + k * d by ring, ← happ, List.map_append, List.sum_append]

theorem encImageFun_body (v d cx cy : Nat) (hcx : cx < d) (hcy : cy < d) :
    encImageFun v d (1 + cx) (1 + cy) = if Nat.testBit v (cx + cy * d) then 1 else 0 := by
  unfold encImageFun
  simp only [Nat.add_sub_cancel_left]
  by_cases ht : Nat.testBit v (cx + cy * d)
  · rw [if_pos ⟨by omega, by omega, by omega, by omega, ht⟩, if_pos ht]
  · rw [if_neg (fun hc => ht hc.2.2.2.2), if_neg ht, if_neg]
    rintro (⟨h0, _⟩ | ⟨h0, _⟩) <;> omega

theorem row_sum_enc (v cy : Nat) (hcy : cy < encode_d v) :
    specRowSum (encImage v) 0 0 1 (encode_d v + 1) cy =
      ((((List.range' (cy * encode_d v) (encode_d v)).map
        (fun e => if v.testBit e then 2 ^ e else 0)).sum : Nat) : Int) := by
  unfold specRowSum bodyTerm
  simp only [Nat.add_sub_cancel]
  rw [List.range'_eq_map_range, List.map_map, Nat.cast_list_sum, List.map_map]
  congr 1
  apply List.map_congr_left
  intro cx hcx
  rw [List.mem_range] at hcx
  simp only [Function.comp]
  have hdata : (encImage v).data (0 + 1 + cx) (0 + 1 + cy) =
      if Nat.testBit v (cx + cy * encode_d v) then 1 else 0 := by
    show encImageFun v (encode_d v) (0 + 1 + cx) (0 + 1 + cy) = _
    rw [show 0 + 1 + cx = 1 + cx by omega, show 0 + 1 + cy = 1 + cy by omega]
    exact encImageFun_body v (encode_d v) cx cy hcx hcy
  rw [hdata]
  by_cases ht : Nat.testBit v (cx + cy * encode_d v)
  · rw [if_pos ht]
    have harg : cy * encode_d v + cx = cx + cy * encode_d v := by omega
    rw [show Nat.testBit v (cy * encode_d v + cx) = Nat.testBit v (cx + cy * encode_d v)
      from by rw [harg], if_pos (by simp [ht]), if_pos ht]
    push_cast
    rw [harg]
  · rw [if_neg ht]
    have harg : cy * encode_d v + cx = cx + cy * encode_d v := by omega
    rw [show Nat.testBit v (cy * encode_d v + cx) = Nat.testBit v (cx + cy * encode_d v)
      from by rw [harg], if_neg (by simp [ht]), if_neg ht]
    simp

theorem cast_sum_map (l : List Nat) (f : Nat → Nat) :
    (l.map (fun cy => ((f cy : Nat) : Int))).sum = (((l.map f).sum : Nat) : Int) := by
  rw [Nat.cast_list_sum, List.map_map]
  rfl

theorem specBodySum_enc (v : Nat) :
    specBodySum (encImage v) 0 0 1 (encode_d v + 1) = ((v : Nat) : Int) := by
  unfold specBodySum
  simp only [Nat.add_sub_cancel]
  have hrows : (List.range (encode_d v)).map (specRowSum (encImage v) 0 0 1 (encode_d v + 1)) =
      (List.range (encode_d v)).map (fun cy =>
        ((((List.range' (cy * encode_d v) (encode_d v)).map
          (fun e => if v.testBit e then 2 ^ e else 0)).sum : Nat) : Int)) := by
    apply List.map_congr_left
    intro cy hcy
    exact row_sum_enc v cy (List.mem_range.mp hcy)
  rw [hrows]
  rw [cast_sum_map (List.range (encode_d v)) (fun cy =>
    ((List.range' (cy * encode_d v) (encode_d v)).map
      (fun e => if v.testBit e then 2 ^ e else 0)).sum)]
  rw [rows_concat (fun e => if v.testBit e then 2 ^ e else 0) (encode_d v) (encode_d v)]
  rw [← List.range_eq_range', sum_testBit_range v (encode_d v * encode_d v)]
  rw [Nat.mod_eq_of_lt (encode_v_lt v)]

/-! ## Claim C1 -/

/-- C1, counterexample: `encode_symbol (2^26 - 1)` does not produce a
decodable grid at all.  Here the `f32` pipeline is exact and agrees with the
model: `v + 1 = 2^26` is exactly representable as `f32`, `log2` of it is
exactly `26.0`, `ceil` keeps it, the IEEE-correctly-rounded `sqrt` gives
`5.0990195…`, and `ceil` makes `d = 6`.  The body loop then computes
`1 << (cx + cy*6)` for every offset whether or not the bit is set, and at
offset `(cx, cy) = (2, 5)` the `i32` shift amount is 32, outside the valid
range: the encoder aborts.  (Just above the `2^25` boundary the failure mode
differs — `(2^25 + 1) as f32` rounds down to `2^25`, giving `d = 5` and a
silently truncated grid — but either way the round trip fails for large
`v`; this counterexample uses an input where model and `f32` agree.) -/
theorem C1_counterexample :
    encode_symbol ((2 ^ 26 - 1 : Nat) : Int) = .error (.shiftOvf 32) ∧
    encode_d (2 ^ 26 - 1) = 6 := by
  exact ⟨by rfl, by rfl⟩

/-- C1, amended: for every `v < 2^25` (frame side `d ≤ 5`), `encode_symbol`
produces the `(d+1) × (d+1)` grid with row 0 and column 0 fully set, and
re-decoding it with the decode payload steps — extent discovery from the
corner, then row-major bit accumulation with weight `2^(cy·d + cx)` —
reproduces `v` exactly; in particular this holds for
`v ∈ {0, 1, 2, 3, 255, 4096}`.  (For `v ≥ 2^25` the round trip fails:
depending on where the `f32` rounding lands, the encoder either aborts on a
32-bit shift — see the counterexample at `v = 2^26 - 1` — or, just above
the boundary, computes `d = 5` and silently truncates the value.) -/
theorem C1_round_trip :
    ∀ v : Nat, v < 2 ^ 25 →
      encode_symbol (v : Int) = .ok (encImage v) ∧
      (encImage v).width = encode_d v + 1 ∧
      (encImage v).height = encode_d v + 1 ∧
      (∀ i, i ≤ encode_d v → (encImage v).data i 0 = 1 ∧ (encImage v).data 0 i = 1) ∧
      find_delta (encImage v) 0 0 1 = encode_d v + 1 ∧
      calc_value (encImage v) 0 0 1 (encode_d v + 1) = .ok (v : Int) := by
  intro v h
  have hd5 : encode_d v ≤ 5 := encode_d_le_5 v h
  have hd1 : 1 ≤ encode_d v := encode_d_pos v
  have hrowcol : ∀ i, i ≤ encode_d v →
      (encImage v).data i 0 = 1 ∧ (encImage v).data 0 i = 1 := by
    intro i hi
    constructor
    · show encImageFun v (encode_d v) i 0 = 1
      unfold encImageFun
      rw [if_neg (fun hc => by omega), if_pos (Or.inl ⟨rfl, hi⟩)]
    · show encImageFun v (encode_d v) 0 i = 1
      unfold encImageFun
      rw [if_neg (fun hc => by omega), if_pos (Or.inr ⟨rfl, hi⟩)]
  have hdelta : find_delta (encImage v) 0 0 1 = encode_d v + 1 := by
    apply find_delta_eq_of _ _ _ _ _ (by omega) (by omega)
    · intro w hw1 hw2
      refine ⟨by show 0 + w < encode_d v + 1; omega,
              by show 0 + w < encode_d v + 1; omega, ?_, ?_⟩
      · show (encImage v).data (0 + w) 0 = 1
        rw [show 0 + w = w by omega]
        exact (hrowcol w (by omega)).1
      · show (encImage v).data 0 (0 + w) = 1
        rw [show 0 + w = w by omega]
        exact (hrowcol w (by omega)).2
    · right
      rintro ⟨hc, -, -, -⟩
      revert hc
      show ¬ (0 + (encode_d v + 1) < (encImage v).width)
      show ¬ (0 + (encode_d v + 1) < encode_d v + 1)
      omega
  have hcalc : calc_value (encImage v) 0 0 1 (encode_d v + 1) = .ok (v : Int) := by
    rw [calc_value_spec (encImage v) 0 0 1 (encode_d v + 1)
      (by intro cx cy hcx hcy
          simp only [Nat.add_sub_cancel] at hcx hcy
          constructor
          · show 0 + 1 + cx < encode_d v + 1; omega
          · show 0 + 1 + cy < encode_d v + 1; omega)
      (by intro cx cy hcx hcy _
          simp only [Nat.add_sub_cancel] at hcx hcy
          have : cy * (encode_d v + 1 - 1) ≤ 4 * 5 := Nat.mul_le_mul (by omega) (by omega)
          omega)]
    rw [specBodySum_enc v]
  exact ⟨encode_symbol_eq v h, rfl, rfl, hrowcol, hdelta, hcalc⟩

/-- C1, witness: the amended round trip at each of the claim's listed
values 0, 1, 2, 3, 255, 4096. -/
theorem C1_round_trip_witness :
    (encode_symbol ((0 : Nat) : Int) = .ok (encImage 0) ∧
      calc_value (encImage 0) 0 0 1 (encode_d 0 + 1) = .ok ((0 : Nat) : Int)) ∧
    (encode_symbol ((1 : Nat) : Int) = .ok (encImage 1) ∧
      calc_value (encImage 1) 0 0 1 (encode_d 1 + 1) = .ok ((1 : Nat) : Int)) ∧
    (encode_symbol ((2 : Nat) : Int) = .ok (encImage 2) ∧
      calc_value (encImage 2) 0 0 1 (encode_d 2 + 1) = .ok ((2 : Nat) : Int)) ∧
    (encode_symbol ((3 : Nat) : Int) = .ok (encImage 3) ∧
      calc_value (encImage 3) 0 0 1 (encode_d 3 + 1) = .ok ((3 : Nat) : Int)) ∧
    (encode_symbol ((255 : Nat) : Int) = .ok (encImage 255) ∧
      calc_value (encImage 255) 0 0 1 (encode_d 255 + 1) = .ok ((255 : Nat) : Int)) ∧
    (encode_symbol ((4096 : Nat) : Int) = .ok (encImage 4096) ∧
      calc_value (encImage 4096) 0 0 1 (encode_d 4096 + 1) = .ok ((4096 : Nat) : Int)) :=
  ⟨⟨(C1_round_trip 0 (by norm_num)).1, (C1_round_trip 0 (by norm_num)).2.2.2.2.2⟩,
   ⟨(C1_round_trip 1 (by norm_num)).1, (C1_round_trip 1 (by norm_num)).2.2.2.2.2⟩,
   ⟨(C1_round_trip 2 (by norm_num)).1, (C1_round_trip 2 (by norm_num)).2.2.2.2.2⟩,
   ⟨(C1_round_trip 3 (by norm_num)).1, (C1_round_trip 3 (by norm_num)).2.2.2.2.2⟩,
   ⟨(C1_round_trip 255 (by norm_num)).1, (C1_round_trip 255 (by norm_num)).2.2.2.2.2⟩,
   ⟨(C1_round_trip 4096 (by norm_num)).1, (C1_round_trip 4096 (by norm_num)).2.2.2.2.2⟩⟩

end Pegovka
